import Mathlib

/-!
A verification development for the ASTeX LaTeX tokenizer / AST builder
(`astex/ast.py`) and macro-expansion engine (`astex/demacro.py`).

The Python source is shallowly embedded:
* source text is a `List Char` (the embedding models the ASCII fragment,
  on which Python's `\s`, `\d` and `[a-zA-Z@]` regex classes agree with
  the character predicates used here);
* the six regular expressions of the tokenizer are embedded as explicit
  "first match at or after a position" search functions;
* Python exceptions become an `Err` error type carried by `Except`;
* the `while` loops of the tokenizer and of the tree-rewrite engine are
  given a fuel parameter (`Nat`); all theorems either fix a sufficient
  fuel or take a hypothesis that the fuel is large enough;
* Python's float hash count (`ParameterNode.num_hashes` after `/= 2`) is
  modelled exactly by a dyadic pair `m / 2 ^ e` (`HashCount`): binary
  floats halve small integers exactly, so this is a faithful model of
  every value the program can produce.
-/

/-- The error kinds raised by the Python source (each `raise ValueError`
site and the index errors of Python list access get one constructor),
plus `fuel` for exhaustion of the termination fuel of an embedded loop
(no Python counterpart: it marks an unfinished computation). -/
inductive Err where
  | unbalanced          -- "Number of {s and }s don't match or the order is incorrect"
  | invalidToken        -- "Invalid token type"
  | recursionLimit      -- "Max recursion level reached"
  | unexpectedEnd       -- "Unexpected end of tokens"
  | malformedName       -- "Incorrectly formatted command name"
  | malformedArgCount   -- "Incorrectly formatted number of arguments"
  | malformedParameter  -- "Number of hashes in parameter must be power of 2"
  | duplicateMacro      -- "Newcommand used for existing command" / environment
  | indexError          -- Python IndexError (list index out of range)
  | invalidRoot         -- Python AttributeError (filter driven onto a non-group root)
  | fuel                -- embedding only: loop fuel exhausted
deriving DecidableEq

/-- `text[a:b]` of Python on a `List Char`. -/
def sliceN (txt : List Char) (a b : Nat) : List Char :=
  (txt.drop a).take (b - a)

/-- Length of the maximal prefix of `l` all of whose characters satisfy `p`
(the extent of a greedy `p*` regex match). -/
def runLen (p : Char → Bool) : List Char → Nat
  | [] => 0
  | c :: cs => if p c then runLen p cs + 1 else 0

/-- Python regex `\s` restricted to ASCII: the six whitespace characters. -/
def isPySpace (c : Char) : Bool :=
  c = ' ' || c = '\t' || c = '\n' || c = '\r' || c = '\x0b' || c = '\x0c'

/-- The regex class `[a-zA-Z@]` of the command pattern. -/
def isCmdChar (c : Char) : Bool :=
  c.isAlpha || c = '@'

/-- The negative lookbehind `(?<!\\)` of the brace and whitespace patterns:
position `i` is not directly preceded by a backslash.  (The lookbehind may
inspect a character before the search start, so this depends only on `i`.) -/
def noBackslashBefore (txt : List Char) (i : Nat) : Bool :=
  i = 0 || txt.get? (i - 1) != some '\\'

/-- The six patterns of `def_tokenizer`, in their priority order. -/
inductive Pat where
  | comment | command | param | lcb | rcb | ws
deriving DecidableEq

/-- Payload of a token: the pattern that matched (with its captured
groups), or `noMatch` for an unmatched span (class `NoMatch`). -/
inductive TokData where
  | noMatch
  | comment (rest : List Char)            -- group 1 of `%(.*\n?)`
  | command (name : List Char)            -- group 1 of `\\([a-zA-Z@]{2,}|.)`
  | param (hashes : Nat) (digit : Char)   -- groups of `(#+)(\d)`
  | lcb | rcb | ws
deriving DecidableEq

/-- A token: payload plus the `[start, stop)` span in the source text
(fields `start`/`end` of the Python `Token`). -/
structure Tok where
  data : TokData
  start : Nat
  stop : Nat
deriving DecidableEq

/-- The pattern a (matched) token was produced by (`Token.pattern`). -/
def tokPat (t : Tok) : Option Pat :=
  match t.data with
  | .noMatch => none
  | .comment _ => some .comment
  | .command _ => some .command
  | .param _ _ => some .param
  | .lcb => some .lcb
  | .rcb => some .rcb
  | .ws => some .ws

/-- Match of `%(.*\n?)` (MULTILINE) starting exactly at `i`: a `%`, then
greedily everything up to (not including) the next newline, then the
newline itself if present. -/
def commentStop (txt : List Char) (i : Nat) : Nat :=
  if txt.get? (i + 1 + runLen (fun c => c != '\n') (txt.drop (i + 1))) = some '\n' then
    i + 1 + runLen (fun c => c != '\n') (txt.drop (i + 1)) + 1
  else i + 1 + runLen (fun c => c != '\n') (txt.drop (i + 1))

def matchComment (txt : List Char) (i : Nat) : Option Tok :=
  if txt.get? i = some '%' then
    some ⟨.comment (sliceN txt (i + 1) (commentStop txt i)), i, commentStop txt i⟩
  else none

/-- Match of `\\([a-zA-Z@]{2,}|.)` starting exactly at `i`: a backslash,
then either a greedy run of two or more letters/`@`, or (only if that run
is shorter than 2) one arbitrary character other than newline. -/
def matchCommand (txt : List Char) (i : Nat) : Option Tok :=
  if txt.get? i = some '\\' then
    if 2 ≤ runLen isCmdChar (txt.drop (i + 1)) then
      some ⟨.command (sliceN txt (i + 1) (i + 1 + runLen isCmdChar (txt.drop (i + 1)))), i,
        i + 1 + runLen isCmdChar (txt.drop (i + 1))⟩
    else
      match txt.get? (i + 1) with
      | some c => if c = '\n' then none else some ⟨.command [c], i, i + 2⟩
      | none => none
  else none

/-- Match of `(#+)(\d)` starting exactly at `i`: the greedy maximal run of
hashes (backtracking cannot shorten it, as the shortened run would have to
be followed by a digit that is in fact a `#`), then one digit. -/
def matchParam (txt : List Char) (i : Nat) : Option Tok :=
  if txt.get? i = some '#' then
    match txt.get? (i + runLen (fun c => c == '#') (txt.drop i)) with
    | some d =>
      if d.isDigit then
        some ⟨.param (runLen (fun c => c == '#') (txt.drop i)) d, i,
          i + runLen (fun c => c == '#') (txt.drop i) + 1⟩
      else none
    | none => none
  else none

/-- Match of `(?<!\\)\{` starting exactly at `i`. -/
def matchLcb (txt : List Char) (i : Nat) : Option Tok :=
  if txt.get? i = some '\x7b' then
    if noBackslashBefore txt i then some ⟨.lcb, i, i + 1⟩ else none
  else none

/-- Match of `(?<!\\)}` starting exactly at `i`. -/
def matchRcb (txt : List Char) (i : Nat) : Option Tok :=
  if txt.get? i = some '\x7d' then
    if noBackslashBefore txt i then some ⟨.rcb, i, i + 1⟩ else none
  else none

/-- Match of `(?<!\\)\s+` starting exactly at `i` (the lookbehind applies
only at the start of the greedy whitespace run). -/
def matchWs (txt : List Char) (i : Nat) : Option Tok :=
  match txt.get? i with
  | some c =>
    if isPySpace c && noBackslashBefore txt i then
      some ⟨.ws, i, i + runLen isPySpace (txt.drop i)⟩
    else none
  | none => none

/-- Dispatch: whether pattern `p` matches starting exactly at position `i`. -/
def matchAt (txt : List Char) : Pat → Nat → Option Tok
  | .comment => matchComment txt
  | .command => matchCommand txt
  | .param => matchParam txt
  | .lcb => matchLcb txt
  | .rcb => matchRcb txt
  | .ws => matchWs txt

/-- Scan positions `i, i+1, ...` (at most `fuel` of them) for the first one
where `m` matches: the leftmost-match rule of `re.search`. -/
def searchAux (m : Nat → Option Tok) : Nat → Nat → Option Tok
  | 0, _ => none
  | fuel + 1, i =>
    match m i with
    | some t => some t
    | none => searchAux m fuel (i + 1)

/-- `pattern.search(text, pos)`: the first match of `p` starting at or
after `pos` (no match can start at or beyond `txt.length`). -/
def searchPat (txt : List Char) (p : Pat) (pos : Nat) : Option Tok :=
  searchAux (matchAt txt p) (txt.length - pos) pos

/-- The pattern priority list of `def_tokenizer`. -/
def patterns : List Pat := [.comment, .command, .param, .lcb, .rcb, .ws]

/-- The initial cached-token list of `Tokenizer.tokenize`: each pattern
searched from 0, patterns without a match dropped. -/
def initToks (txt : List Char) : List Tok :=
  patterns.filterMap (fun p => searchPat txt p 0)

/-- `_update_token` mapped over the cached list: tokens not yet reached are
kept, the others are re-searched from `pos` and dropped when their pattern
has no further match. -/
def updateToks (txt : List Char) (pos : Nat) (toks : List Tok) : List Tok :=
  toks.filterMap (fun t =>
    if pos ≤ t.start then some t
    else match tokPat t with
      | some p => searchPat txt p pos
      | none => none)

/-- `min(tokens, key=lambda t: t.start)`: the first token with minimal
start (Python's `min` keeps the earliest of equal keys, so list order
breaks ties). -/
def minTok : Tok → List Tok → Tok
  | best, [] => best
  | best, t :: ts => minTok (if t.start < best.start then t else best) ts

/-- The `while tokens and i < len(text)` loop of `Tokenizer.tokenize`,
with the cached-token list as state. -/
def tokLoop (txt : List Char) : Nat → Nat → List Tok → List Tok
  | 0, _, _ => []
  | fuel + 1, i, toks =>
    match toks with
    | [] => if i < txt.length then [⟨.noMatch, i, txt.length⟩] else []
    | t0 :: ts =>
      if i < txt.length then
        let t := minTok t0 ts
        (if i < t.start then [(⟨.noMatch, i, t.start⟩ : Tok)] else []) ++
          t :: tokLoop txt fuel t.stop (updateToks txt t.stop (t0 :: ts))
      else []

/-- `Tokenizer.tokenize` for `def_tokenizer` (the loop makes strict
progress at every step, so `length + 1` rounds of fuel always suffice). -/
def tokenize (txt : List Char) : List Tok :=
  tokLoop txt (txt.length + 1) 0 (initToks txt)

/-- The tokenisation loop as the specification words it: at each step,
re-search every pattern from the current position and emit the candidate
with the smallest start, ties broken by pattern list order. -/
def tokLoopSpec (txt : List Char) : Nat → Nat → List Tok
  | 0, _ => []
  | fuel + 1, i =>
    match patterns.filterMap (fun p => searchPat txt p i) with
    | [] => if i < txt.length then [⟨.noMatch, i, txt.length⟩] else []
    | t0 :: ts =>
      if i < txt.length then
        let t := minTok t0 ts
        (if i < t.start then [(⟨.noMatch, i, t.start⟩ : Tok)] else []) ++
          t :: tokLoopSpec txt fuel t.stop
      else []

/-- Reference tokenizer following the specification text (used to state
that the cached implementation selects tokens exactly as specified). -/
def tokenizeSpec (txt : List Char) : List Tok :=
  tokLoopSpec txt (txt.length + 1) 0

/-- `covers ts a b`: the spans of `ts` tile `[a, b)` exactly — each token
starts where the previous one stopped, with no gaps and no overlaps. -/
def covers : List Tok → Nat → Nat → Bool
  | [], a, b => a == b
  | t :: ts, a, b => t.start == a && a ≤ t.stop && covers ts t.stop b

/-! ## The AST node types (`astex/ast.py`, classes `Node` … `BracketNode`) -/

/-- `ParameterNode.num_hashes`: an `int` in a freshly parsed tree, a float
after `_replace_parameters` executes `n.num_hashes /= 2`.  Every value the
program can produce is an integer divided by a power of two, which a
Python binary float represents exactly; the pair `⟨m, e⟩` denotes the
value `m / 2 ^ e`. -/
structure HashCount where
  m : Int
  e : Nat
deriving DecidableEq

/-- `num_hashes /= 2` on a float is exact halving. -/
def HashCount.halve (h : HashCount) : HashCount := ⟨h.m, h.e + 1⟩

/-- `num_hashes == 1` (Python numeric equality across int/float). -/
def HashCount.isOne (h : HashCount) : Bool := h.m == 2 ^ h.e

/-- `int(num_hashes) == num_hashes`: the value is an integer. -/
def HashCount.isIntegral (h : HashCount) : Bool := h.m % ((2 : Int) ^ h.e) == 0

/-- The integer value (meaningful when `isIntegral`). -/
def HashCount.intVal (h : HashCount) : Int := h.m / 2 ^ h.e

/-- The exact rational value `m / 2 ^ e` (for stating properties). -/
def HashCount.val (h : HashCount) : ℚ := (h.m : ℚ) / 2 ^ h.e

/-- The node variants of the TeX AST.  `group` is a plain `GroupNode`,
`bracket` a `BracketNode`; both own their list of children.  The `parent`
back-references of the Python nodes are not modelled: they are non-owning
aliases used only to reach the enclosing group during a rewrite, which the
embedding passes explicitly.  The transient `data` slot of group nodes
(macro-table bookkeeping) is likewise passed explicitly by the rewrite
engine below. -/
inductive Node where
  | text (s : List Char)
  | ws (s : List Char)
  | command (s : List Char)
  | comment (s : List Char)
  | param (hashes : HashCount) (idx : Int)
  | group (children : List Node)
  | bracket (children : List Node)

/-- Decimal rendering of an `int` (Python `f"{...}"` on an int). -/
def intChars (i : Int) : List Char :=
  if i < 0 then '-' :: Nat.toDigits 10 i.natAbs else Nat.toDigits 10 i.toNat

mutual

/-- `__str__` of each node variant.  For a parameter node Python evaluates
`'#' * num_hashes`, which requires the int value (on a float it raises a
`TypeError`; no theorem below stringifies a halved parameter node). -/
def strNode : Node → List Char
  | .text s => s
  | .ws s => s
  | .command s => '\\' :: s
  | .comment s => '%' :: s
  | .param h i => List.replicate h.intVal.toNat '#' ++ intChars i
  | .group cs => strList cs
  | .bracket cs => '\x7b' :: strList cs ++ ['\x7d']

/-- `GroupNode.__str__`: concatenation of the children's renderings. -/
def strList : List Node → List Char
  | [] => []
  | n :: ns => strNode n ++ strList ns

end

mutual

/-- `Node.copy` / `GroupNode.copy`: leaves are shallow-copied (an
observably identical value), groups rebuild an instance of the same class
from copies of the children.  Note: unlike `GroupNode.filter`, `copy` has
no recursion-depth check. -/
def copyNode : Node → Node
  | .group cs => .group (copyList cs)
  | .bracket cs => .bracket (copyList cs)
  | n => n

def copyList : List Node → List Node
  | [] => []
  | n :: ns => copyNode n :: copyList ns

end

mutual

/-- Number of nodes in a tree (used only for fuel bounds). -/
def countN : Node → Nat
  | .group cs => countL cs + 1
  | .bracket cs => countL cs + 1
  | _ => 1

def countL : List Node → Nat
  | [] => 0
  | n :: ns => countN n + countL ns

end

mutual

/-- Group-nesting depth of a node: a group one level above its deepest
group descendant, leaves at depth 0. -/
def gdepth : Node → Nat
  | .group cs => gdepthL cs + 1
  | .bracket cs => gdepthL cs + 1
  | _ => 0

def gdepthL : List Node → Nat
  | [] => 0
  | n :: ns => max (gdepth n) (gdepthL ns)

end

/-! ## The tree builder (`to_ast`) -/

/-- The cursor-descent loop of `to_ast`, with the implicit parent chain of
the mutable cursor made explicit: `acc` holds the children of the current
group in reverse order, `stack` the (reversed) children lists of the
enclosing groups, innermost first.  A right brace with an empty stack is
the unbalanced-brackets error; at the end of input the function returns
the *current* group — the root when the stack is empty, otherwise the
innermost still-open bracket group (unclosed groups are not an error). -/
def build (txt : List Char) : List Tok → List Node → List (List Node) → Except Err Node
  | [], acc, [] => .ok (.group acc.reverse)
  | [], acc, _ :: _ => .ok (.bracket acc.reverse)
  | t :: ts, acc, stack =>
    match t.data with
    | .noMatch => build txt ts (.text (sliceN txt t.start t.stop) :: acc) stack
    | .ws => build txt ts (.ws (sliceN txt t.start t.stop) :: acc) stack
    | .param h d => build txt ts (.param ⟨(h : Int), 0⟩ ((d.toNat : Int) - 48) :: acc) stack
    | .comment rest => build txt ts (.comment rest :: acc) stack
    | .command name => build txt ts (.command name :: acc) stack
    | .lcb => build txt ts [] (acc :: stack)
    | .rcb =>
      match stack with
      | [] => .error .unbalanced
      | p :: stack' => build txt ts (.bracket acc.reverse :: p) stack'

/-- `to_ast(text=txt)` (the file-reading entry is out of scope; passing a
text never raises the both-or-neither `ValueError`). -/
def toAst (txt : List Char) : Except Err Node :=
  build txt (tokenize txt) [] []

/-- The subsequence of brace tokens, `true` for `{`, `false` for `}`. -/
def braceSig (ts : List Tok) : List Bool :=
  ts.filterMap (fun t =>
    match t.data with
    | .lcb => some true
    | .rcb => some false
    | _ => none)

/-- Starting from nesting depth `d`, the brace string closes every group
it opens and ends at depth 0 (so the builder's cursor returns to the
root). -/
def balancedFrom : List Bool → Nat → Bool
  | [], d => d == 0
  | true :: bs, d => balancedFrom bs (d + 1)
  | false :: bs, d => decide (0 < d) && balancedFrom bs (d - 1)

/-- Starting from nesting depth `d`, some prefix of the brace string has
an excess close bracket (which makes the builder raise). -/
def dips : List Bool → Nat → Bool
  | [], _ => false
  | true :: bs, d => dips bs (d + 1)
  | false :: bs, d => d == 0 || dips bs (d - 1)

/-- The hypothesis of claims C1/C3 taken literally at the character level:
scanning the raw text, a brace is "unescaped" when not directly preceded
by a backslash, and the unescaped braces must balance with valid nesting
(counter never negative, zero at the end).  `prev` is the previous
character. -/
def charBalancedAux : Option Char → List Char → Nat → Bool
  | _, [], d => d == 0
  | prev, c :: cs, d =>
    if c = '\x7b' && prev != some '\\' then charBalancedAux (some c) cs (d + 1)
    else if c = '\x7d' && prev != some '\\' then
      decide (0 < d) && charBalancedAux (some c) cs (d - 1)
    else charBalancedAux (some c) cs d

/-- Character-level balance of unescaped braces (the claim's hypothesis). -/
def charBalanced (txt : List Char) : Bool :=
  charBalancedAux none txt 0

/-- Character-level "contains an extra unmatched unescaped `}`": the scan
of unescaped braces dips below zero somewhere. -/
def charDipsAux : Option Char → List Char → Nat → Bool
  | _, [], _ => false
  | prev, c :: cs, d =>
    if c = '\x7b' && prev != some '\\' then charDipsAux (some c) cs (d + 1)
    else if c = '\x7d' && prev != some '\\' then
      d == 0 || charDipsAux (some c) cs (d - 1)
    else charDipsAux (some c) cs d

/-- Character-level unmatched-close predicate (the claim's hypothesis). -/
def charDips (txt : List Char) : Bool :=
  charDipsAux none txt 0

/-- Whether an `Except` result is a success. -/
def exceptOk : Except Err Node → Bool
  | .ok _ => true
  | .error _ => false

/-! ## The lookahead reader (`read_next`) and demacro helpers -/

/-- A node `read_next` skips: whitespace or comment. -/
def skippable : Node → Bool
  | .ws _ => true
  | .comment _ => true
  | _ => false

/-- `read_next(it, error=True)`: pop (and discard) whitespace and comment
nodes; return the first other node together with the remaining queue.  A
text node of more than one character is split: only its first character is
returned and the rest is pushed back.  An exhausted queue raises. -/
def readNextE : List Node → Except Err (Node × List Node)
  | [] => .error .unexpectedEnd
  | n :: rest =>
    if skippable n then readNextE rest
    else
      match n with
      | .text (c1 :: c2 :: cs) => .ok (.text [c1], .text (c2 :: cs) :: rest)
      | _ => .ok (n, rest)

/-- `read_next(it, error=False)`: as `readNextE` but an exhausted queue
returns `none` (the whitespace/comments popped on the way are still
gone). -/
def readNextOpt : List Node → Option Node × List Node
  | [] => (none, [])
  | n :: rest =>
    if skippable n then readNextOpt rest
    else
      match n with
      | .text (c1 :: c2 :: cs) => (some (.text [c1]), .text (c2 :: cs) :: rest)
      | _ => (some n, rest)

/-- `GroupNode.take`: the children of a group (bracket groups included),
or the node itself as a singleton. -/
def takeChildren : Node → List Node
  | .group cs => cs
  | .bracket cs => cs
  | n => [n]

/-- `_filter_children(node, filter_ws)`: inside a group, drop comments
(and whitespace unless `filterWs` is false); if exactly one child
survives, return it. -/
def filterChildren (n : Node) (filterWs : Bool) : Option Node :=
  match n with
  | .group cs | .bracket cs =>
    match cs.filter (fun x => !skippable x || (!filterWs && !(x matches .comment _))) with
    | [x] => some x
    | _ => none
  | _ => none

/-- Python list indexing `l[i]`: negative indices count from the end,
out-of-range raises `IndexError`. -/
def pyIndex (l : List Node) (i : Int) : Option Node :=
  if 0 ≤ i then l.get? i.toNat
  else if i.natAbs ≤ l.length then l.get? (l.length - i.natAbs) else none

/-- Python `int(s)` on the strings this program can pass it (an optional
sign followed by decimal digits; in the source the argument is always a
single character). -/
def pyInt (s : List Char) : Option Int :=
  match s with
  | '-' :: ds => (pyIntNat ds).map (fun n => -(n : Int))
  | '+' :: ds => (pyIntNat ds).map (fun n => (n : Int))
  | ds => (pyIntNat ds).map (fun n => (n : Int))
where
  /-- Decimal digits to a number; `none` when empty or non-digit. -/
  pyIntNat : List Char → Option Nat :=
    fun ds =>
      if ds.isEmpty then none
      else ds.foldl (fun acc c =>
        match acc with
        | some v => if c.isDigit then some (v * 10 + (c.toNat - 48)) else none
        | none => none) (some 0)

/-! ## The macro table -/

/-- A macro body: an AST template (`GroupNode`) or a native callable. -/
inductive Body where
  | tree (body : Node)
  | native (f : List Node → Node)

/-- One entry of the macro table: `{'args': …, 'default': …, 'body': …}`.
The parser only ever stores an argument count in `0…9` (checked by
`_extract_arguments`), so `args` is a `Nat`. -/
structure MacroData where
  args : Nat
  dflt : Option Node
  body : Body

/-- The macro table, a Python dict keyed by macro name.  Keys are unique;
`insertTbl` overwrites in place like dict assignment. -/
def Table := List (List Char × MacroData)

/-- Empty table. -/
def emptyTbl : Table := []

/-- Dict lookup. -/
def lookupTbl (k : List Char) : Table → Option MacroData
  | [] => none
  | (k', v) :: rest => if k' = k then some v else lookupTbl k rest

/-- `name in macros`. -/
def memTbl (k : List Char) (t : Table) : Bool :=
  (lookupTbl k t).isSome

/-- `macros[name] = data`: replace the existing binding, else append. -/
def insertTbl (k : List Char) (v : MacroData) : Table → Table
  | [] => [(k, v)]
  | (k', v') :: rest =>
    if k' = k then (k', v) :: rest else (k', v') :: insertTbl k v rest

/-! ## The generic rewrite engine (`GroupNode.filter`) -/

/-- The observable effects of one invocation of a `filter_func` on a node:
an updated per-level state (the macro-table slot the rule reads through
`n.parent.data`), nodes the rule appended directly to the output group via
`n.parent.take(...)` (these bypass the recursion into kept groups), the
kept replacement node (`none` drops the node), and the updated lookahead
queue. -/
structure Step (σ : Type) where
  state : σ
  emit : List Node
  keep : Option Node
  queue : List Node

/-- A rewrite rule.  The `Nat` argument is the remaining fuel, handed to
rules (like `_process`) that internally run another filter pass. -/
def Rule (σ : Type) := Nat → σ → Node → List Node → Except Err (Step σ)

/-- The queue loop of `_do_filter` at one group level.  `level` is the
current recursion level; descending into a kept child group re-enters at
`level + 1` and fails with the recursion-limit error when that exceeds
`MAX_RECURSE_LEVEL = 256` (the check `level > MAX_RECURSE_LEVEL` sits at
the entry of `_do_filter`; it is performed here at the descent, which is
equivalent because the root call starts at level 0).  The child level
starts from the current state and its final state is discarded — in the
source, a nested group forks its own `data` slot, so the parent's slot is
untouched.  Returns the rebuilt children and the level's final state. -/
def filterRun (rule : Rule σ) : Nat → Nat → σ → List Node → Except Err (List Node × σ)
  | 0, _, _, _ => .error .fuel
  | _ + 1, _, st, [] => .ok ([], st)
  | fuel + 1, level, st, n :: rest => do
    let s ← rule fuel st n rest
    match s.keep with
    | none => do
      let (out, st') ← filterRun rule fuel level s.state s.queue
      .ok (s.emit ++ out, st')
    | some k =>
      match k with
      | .group cs =>
        if 256 < level + 1 then .error .recursionLimit
        else do
          let (cs', _) ← filterRun rule fuel (level + 1) s.state cs
          let (out, st') ← filterRun rule fuel level s.state s.queue
          .ok (s.emit ++ .group cs' :: out, st')
      | .bracket cs =>
        if 256 < level + 1 then .error .recursionLimit
        else do
          let (cs', _) ← filterRun rule fuel (level + 1) s.state cs
          let (out, st') ← filterRun rule fuel level s.state s.queue
          .ok (s.emit ++ .bracket cs' :: out, st')
      | k' => do
        let (out, st') ← filterRun rule fuel level s.state s.queue
        .ok (s.emit ++ k' :: out, st')

/-- `GroupNode.filter(filter_func, should_copy)`.  The source first calls
`filter_func` on the root itself (with an empty queue); for every rule the
source instantiates (`_process`, whose first line returns any parentless
node unchanged; `_do_replace` and `_clear_data`, which return every group
unchanged), that call is the identity on the root, so the embedding goes
straight to the children.  The root call `_do_filter(obj)` starts at
level 0 and `0 > 256` is false, so no entry check appears here.  A root
without a `children` attribute would raise in Python (`invalidRoot`). -/
def filterE (rule : Rule σ) (fuel : Nat) (st : σ) (shouldCopy : Bool) (root : Node) :
    Except Err (Node × σ) :=
  match (if shouldCopy then copyNode root else root) with
  | .group cs => do
    let (cs', st') ← filterRun rule fuel 0 st cs
    .ok (.group cs', st')
  | .bracket cs => do
    let (cs', st') ← filterRun rule fuel 0 st cs
    .ok (.bracket cs', st')
  | _ => .error .invalidRoot

/-- The rule of `clear_data` (and the trivial rule of a plain traversal):
keep every node, touching only the transient `data` slots, which the
embedding does not store. -/
def keepAllRule : Rule Unit := fun _ _ n queue => .ok ⟨(), [], some n, queue⟩

/-- `clear_data(root)` = `root.filter(_clear_data, False)`. -/
def clearData (fuel : Nat) (root : Node) : Except Err Node :=
  (filterE keepAllRule fuel () false root).map (·.1)

/-! ## Parameter substitution (`_replace_parameters`) -/

/-- `_do_replace`: a parameter node of hash count 1 is replaced by a copy
of the corresponding argument, spliced into the parent via `take` (so a
group argument loses its wrapper and its children bypass further
filtering); any other parameter node has its hash count halved in place
and is kept, raising when the halved count is not an integer.  All other
nodes pass through. -/
def replaceRule (params : List Node) : Rule Unit := fun _ _ n queue =>
  match n with
  | .param h idx =>
    if h.isOne then
      match pyIndex params (idx - 1) with
      | some arg => .ok ⟨(), takeChildren (copyNode arg), none, queue⟩
      | none => .error .indexError
    else
      let h' := h.halve
      if h'.isIntegral then .ok ⟨(), [], some (.param h' idx), queue⟩
      else .error .malformedParameter
  | _ => .ok ⟨(), [], some n, queue⟩

/-- `_replace_parameters(root, params)` = `root.filter(_do_replace)`
(with the default `should_copy=True`). -/
def replaceParams (fuel : Nat) (root : Node) (params : List Node) : Except Err Node :=
  (filterE (replaceRule params) fuel () true root).map (·.1)

/-! ## Macro definition readers (`demacro.py` helpers) -/

/-- `_read_until_end_bracket`: read (via `read_next`, so skipping
whitespace and comments) until a text node `]`, collecting everything in
between.  Returns the collected children (the Python function wraps them
in a fresh `GroupNode`) and the remaining queue. -/
def readUntilEndBracket : Nat → List Node → Except Err (List Node × List Node)
  | 0, _ => .error .fuel
  | fuel + 1, q => do
    let (n, q1) ← readNextE q
    match n with
    | .text [']'] => .ok ([], q1)
    | _ => do
      let (cs, q2) ← readUntilEndBracket fuel q1
      .ok (n :: cs, q2)

/-- `_read_command_name`: read the next unit, skip one star, unwrap a
one-child group, and require a command node, whose name is returned. -/
def readCommandName (q : List Node) : Except Err (List Char × List Node) := do
  let (n1, q1) ← readNextE q
  let (n2, q2) ←
    match n1 with
    | .text ['*'] => readNextE q1
    | _ => pure (n1, q1)
  match (filterChildren n2 true).getD n2 with
  | .command nm => .ok (nm, q2)
  | _ => .error .malformedName

/-- `_extract_arguments`: unwrap a one-child group, require a text node
holding an integer in `0…9`. -/
def extractArguments (n : Node) : Except Err Nat :=
  match (filterChildren n true).getD n with
  | .text s =>
    match pyInt s with
    | some v => if 0 ≤ v ∧ v < 10 then .ok v.toNat else .error .malformedArgCount
    | none => .error .malformedArgCount
  | _ => .error .malformedArgCount

/-- `_extract_optional_argument`: unwrap once (keeping whitespace) if that
yields a bracket group, then take the content into a fresh group. -/
def extractOptionalArgument (n : Node) : Node :=
  let node :=
    match filterChildren n false with
    | some (.bracket cs) => .bracket cs
    | _ => n
  .group (takeChildren node)

/-- `_get_bracket_args`: after the macro name, an optional `[count]` and
an optional `[default]`, then the next unit (the body).  Returns
`(args, default, body-unit, remaining queue)`. -/
def getBracketArgs (fuel : Nat) (q : List Node) :
    Except Err (Nat × Option Node × Node × List Node) := do
  let (temp, q1) ← readNextE q
  match temp with
  | .text ['['] => do
    let (cs, q2) ← readUntilEndBracket fuel q1
    let args ← extractArguments (.group cs)
    let (temp2, q3) ← readNextE q2
    match temp2 with
    | .text ['['] => do
      let (cs2, q4) ← readUntilEndBracket fuel q3
      let dflt := extractOptionalArgument (.group cs2)
      let (temp3, q5) ← readNextE q4
      .ok (args, some dflt, temp3, q5)
    | _ => .ok (args, none, temp2, q3)
  | _ => .ok (0, none, temp, q1)

/-- The `for _ in range(args)` loop of `_expand_macro`: read `k` required
arguments, each one significant unit. -/
def readArgsN : Nat → List Node → Except Err (List Node × List Node)
  | 0, q => .ok ([], q)
  | k + 1, q => do
    let (n, q1) ← readNextE q
    let (ns, q2) ← readArgsN k q1
    .ok (n :: ns, q2)

/-- `_expand_macro(it, data, parent)`: read the arguments (handling an
optional `[...]` override when a default exists), substitute them into the
body (or call a native body), and push the children of the result onto the
front of the queue.  Returns the new queue. -/
def expandMacro (fuel : Nat) (d : MacroData) (q : List Node) : Except Err (List Node) := do
  let (toks, q1) ←
    if 0 < d.args then do
      let (first, args', q') ←
        match d.dflt with
        | some dfltArg =>
          match readNextOpt q with
          | (some temp, qa) =>
            match temp with
            | .text ['['] => do
              let (cs, qb) ← readUntilEndBracket fuel qa
              let grp := Node.group cs
              let arg :=
                match filterChildren grp false with
                | some (.bracket cs2) => Node.bracket cs2
                | _ => grp
              pure ([arg], d.args - 1, qb)
            | _ => pure ([dfltArg], d.args - 1, temp :: qa)
          | (none, qa) => pure ([dfltArg], d.args - 1, qa)
        | none => pure (([] : List Node), d.args, q)
      let (restArgs, q'') ← readArgsN args' q'
      pure (first ++ restArgs, q'')
    else pure (([] : List Node), q)
  let expanded ←
    match d.body with
    | .tree body => replaceParams fuel body toks
    | .native f => pure (f toks)
  match expanded with
  | .group cs => .ok (cs ++ q1)
  | .bracket cs => .ok (cs ++ q1)
  | _ => .error .invalidRoot

/-! ## The macro-expansion rule (`_process`) and `Demacro.demacro` -/

/-- The five definition-command names plus `begin`/`end`. -/
def defNames : List (List Char) :=
  ["newcommand".toList, "renewcommand".toList, "providecommand".toList]

/-- `_process`, as a rewrite rule over the macro table.  The copy-on-write
bookkeeping of the source (`data['copied']`, `_check_macros`) only avoids
copying the shared dict before the first write at a level and is
observationally the pure state threading performed here: a nested level
starts from the parent's current table and its writes never reach the
parent (the engine discards the child level's final state). -/
def processRule : Rule Table := fun fuel tbl n queue =>
  match n with
  | .command name =>
    if name ∈ defNames then do
      let (cname, q1) ← readCommandName queue
      let (args, dflt, temp, q2) ← getBracketArgs fuel q1
      let body := Node.group (takeChildren temp)
      let data : MacroData := ⟨args, dflt, .tree body⟩
      if name = "newcommand".toList ∧ memTbl cname tbl then .error .duplicateMacro
      else if name ≠ "providecommand".toList ∨ ¬ memTbl cname tbl then
        .ok ⟨insertTbl cname data tbl, [], none, q2⟩
      else .ok ⟨tbl, [], none, q2⟩
    else if name = "newenvironment".toList ∨ name = "renewenvironment".toList then do
      let (temp, q1) ← readNextE queue
      let ename :=
        match temp with
        | .bracket _ => ((strNode temp).drop 1).dropLast
        | _ => strNode temp
      let (args, dflt, temp2, q2) ← getBracketArgs fuel q1
      let beginBody := Node.group (takeChildren temp2)
      let (temp3, q3) ← readNextE q2
      let endBody := Node.group (takeChildren temp3)
      if name = "newenvironment".toList ∧ memTbl ename tbl then .error .duplicateMacro
      else
        .ok ⟨insertTbl ("end".toList ++ ename) ⟨0, none, .tree endBody⟩
              (insertTbl ename ⟨args, dflt, .tree beginBody⟩ tbl), [], none, q3⟩
    else
      match lookupTbl name tbl with
      | some d => do
        let q' ← expandMacro fuel d queue
        .ok ⟨tbl, [], none, q'⟩
      | none =>
        if name = "begin".toList ∨ name = "end".toList then do
          let (temp, q1) ← readNextE queue
          let ename :=
            match temp with
            | .bracket _ => ((strNode temp).drop 1).dropLast
            | _ => strNode temp
          let key := if name = "end".toList then "end".toList ++ ename else ename
          match lookupTbl key tbl with
          | some d => do
            let q' ← expandMacro fuel d q1
            .ok ⟨tbl, [], none, q'⟩
          | none => .ok ⟨tbl, [], some n, temp :: q1⟩
        else .ok ⟨tbl, [], some n, queue⟩
  | _ => .ok ⟨tbl, [], some n, queue⟩

/-- `Demacro.demacro(root)`: run the `_process` filter in place (the root's
`data` slot is seeded with the engine's accumulated table and read back
afterwards), then `clear_data`.  Returns the expanded tree and the final
table (`self.macros` after the call). -/
def demacroTree (fuel : Nat) (tbl : Table) (root : Node) : Except Err (Node × Table) := do
  let (r1, tbl') ← filterE processRule fuel tbl false root
  let r2 ← clearData fuel r1
  .ok (r2, tbl')

/-! ## Further definitions used by the verification -/

/-- The stringification of the node `to_ast` builds for a token (braces
for the structural brace tokens). -/
def emitStr (txt : List Char) (t : Tok) : List Char :=
  match t.data with
  | .noMatch => sliceN txt t.start t.stop
  | .ws => sliceN txt t.start t.stop
  | .comment rest => '%' :: rest
  | .command name => '\\' :: name
  | .param h d => List.replicate h '#' ++ intChars ((d.toNat : Int) - 48)
  | .lcb => ['\x7b']
  | .rcb => ['\x7d']

/-- Rendering of a reversed accumulator. -/
def renderAcc (acc : List Node) : List Char := strList acc.reverse

/-- The text rendered by the part of the tree already built: the pending
open groups (innermost first) and the current accumulator. -/
def pend : List (List Node) → List Node → List Char
  | [], acc => renderAcc acc
  | p :: rest, acc => pend rest p ++ '\x7b' :: renderAcc acc

/-- Rendering of all tokens. -/
def emitAll (txt : List Char) (ts : List Tok) : List Char :=
  (ts.map (emitStr txt)).join

/-- The concatenation of the tokens' source spans. -/
def tokensText (txt : List Char) (ts : List Tok) : List Char :=
  (ts.map (fun t => sliceN txt t.start t.stop)).join

mutual

/-- `P` holds for every node of the forest, recursively. -/
def deepAllN (P : Node → Bool) : Node → Bool
  | .group cs => P (.group cs) && deepAllL P cs
  | .bracket cs => P (.bracket cs) && deepAllL P cs
  | n => P n

def deepAllL (P : Node → Bool) : List Node → Bool
  | [] => true
  | n :: ns => deepAllN P n && deepAllL P ns

end

/-- The command names `_process` reacts to. -/
def specialNames : List (List Char) :=
  defNames ++ ["newenvironment".toList, "renewenvironment".toList,
    "begin".toList, "end".toList]

/-- A node that is not a command carrying one of the special names. -/
def notSpecialCmd : Node → Bool
  | .command name => decide (name ∉ specialNames)
  | _ => true

/-- The substitution walk in the words of the (amended) claim: every
parameter node of hash count 1 becomes a spliced copy of the argument it
indexes; every other parameter node has its hash count halved and is kept
when the halved count is an integer, and raises `MalformedParameter` when
it is not (i.e. when the hash count was odd); groups are walked
recursively; everything else is untouched. -/
def substL (params : List Node) : List Node → Except Err (List Node)
  | [] => .ok []
  | .param h idx :: rest =>
    if h.isOne then
      match pyIndex params (idx - 1) with
      | some arg => do
        let r ← substL params rest
        .ok (takeChildren (copyNode arg) ++ r)
      | none => .error .indexError
    else
      if h.halve.isIntegral then do
        let r ← substL params rest
        .ok (.param h.halve idx :: r)
      else .error .malformedParameter
  | .group cs :: rest => do
    let cs' ← substL params cs
    let r ← substL params rest
    .ok (.group cs' :: r)
  | .bracket cs :: rest => do
    let cs' ← substL params cs
    let r ← substL params rest
    .ok (.bracket cs' :: r)
  | n :: rest => do
    let r ← substL params rest
    .ok (n :: r)

/-- A chain of `k` nested bracket groups around a text leaf. -/
def deepNode : Nat → Node
  | 0 => .text ['a']
  | k + 1 => .bracket [deepNode k]

/-- `q` is an integer power of two (`…, 1/4, 1/2, 1, 2, 4, …`). -/
def IsPowTwo (q : ℚ) : Prop := ∃ z : ℤ, q = 2 ^ z

/-! ## Basic facts about slices, runs and searches -/

theorem get?_some_lt {txt : List Char} {i : Nat} {c : Char} (h : txt.get? i = some c) :
    i < txt.length := by
  rcases List.get?_eq_some.mp h with ⟨hlt, _⟩
  exact hlt

theorem runLen_le (p : Char → Bool) (l : List Char) : runLen p l ≤ l.length := by
  induction l with
  | nil => simp [runLen]
  | cons c cs ih =>
    simp only [runLen, List.length_cons]
    split <;> omega

theorem drop_eq_cons_of_get? {txt : List Char} {i : Nat} {c : Char}
    (h : txt.get? i = some c) : txt.drop i = c :: txt.drop (i + 1) := by
  rcases List.get?_eq_some.mp h with ⟨hlt, hget⟩
  rw [List.drop_eq_get_cons hlt, hget]

theorem sliceN_cons {txt : List Char} {i b : Nat} {c : Char}
    (h : txt.get? i = some c) (hib : i < b) :
    sliceN txt i b = c :: sliceN txt (i + 1) b := by
  unfold sliceN
  rw [drop_eq_cons_of_get? h]
  have : b - i = (b - (i + 1)) + 1 := by omega
  rw [this, List.take_succ_cons]

theorem sliceN_self (txt : List Char) (i : Nat) : sliceN txt i i = [] := by
  simp [sliceN]

theorem sliceN_append {txt : List Char} {a b c : Nat} (hab : a ≤ b) (hbc : b ≤ c) :
    sliceN txt a b ++ sliceN txt b c = sliceN txt a c := by
  unfold sliceN
  have h1 : c - a = (b - a) + (c - b) := by omega
  rw [h1, List.take_add]
  congr 1
  have h2 : (txt.drop a).drop (b - a) = txt.drop b := by
    rw [List.drop_drop]
    congr 1
    omega
  rw [h2]

theorem sliceN_full (txt : List Char) : sliceN txt 0 txt.length = txt := by
  simp [sliceN]

/-- A run of `p`-characters read off the text: the slice it spans
consists of characters satisfying `p`, and the character after a maximal
run fails `p`. -/
theorem runLen_sliceN {p : Char → Bool} {txt : List Char} (i : Nat) :
    ∀ k, k ≤ runLen p (txt.drop i) → sliceN txt i (i + k) = (txt.drop i).take k := by
  intro k _
  unfold sliceN
  congr 1
  omega

theorem runLen_head_true {p : Char → Bool} {l : List Char} {c : Char}
    (h : l = c :: l.tail) (hc : p c = true) : runLen p l = runLen p l.tail + 1 := by
  rw [h]
  simp [runLen, hc]

theorem take_runLen_all {p : Char → Bool} (l : List Char) :
    ∀ c ∈ l.take (runLen p l), p c = true := by
  induction l with
  | nil => simp
  | cons c cs ih =>
    simp only [runLen]
    split
    · intro x hx
      rw [List.take_succ_cons] at hx
      rcases List.mem_cons.mp hx with h | h
      · subst h; assumption
      · exact ih x h
    · simp

/-- The characters of a maximal `(c == '#')`-run are all `'#'`. -/
theorem take_hash_run (l : List Char) :
    l.take (runLen (fun c => c == '#') l) =
      List.replicate (runLen (fun c => c == '#') l) '#' := by
  induction l with
  | nil => simp [runLen]
  | cons c cs ih =>
    simp only [runLen]
    split
    · next h =>
      rw [List.take_succ_cons, List.replicate_succ, ih]
      have : c = '#' := by
        have := of_decide_eq_true h
        exact this
      rw [this]
    · simp

/-! ### The leftmost-search characterisation -/

theorem searchAux_none_iff (m : Nat → Option Tok) :
    ∀ fuel i, searchAux m fuel i = none ↔ ∀ k, i ≤ k → k < i + fuel → m k = none := by
  intro fuel
  induction fuel with
  | zero => intro i; simp [searchAux]; omega
  | succ f ih =>
    intro i
    simp only [searchAux]
    cases hm : m i with
    | some t =>
      simp only []
      constructor
      · intro h; cases h
      · intro h
        have := h i (le_refl i) (by omega)
        rw [hm] at this; cases this
    | none =>
      rw [ih (i + 1)]
      constructor
      · intro h k hk1 hk2
        rcases Nat.eq_or_lt_of_le hk1 with h1 | h1
        · subst h1; exact hm
        · exact h k h1 (by omega)
      · intro h k hk1 hk2
        exact h k (by omega) (by omega)

theorem searchAux_some (m : Nat → Option Tok) :
    ∀ fuel i t, searchAux m fuel i = some t →
      ∃ j, i ≤ j ∧ j < i + fuel ∧ m j = some t ∧ ∀ k, i ≤ k → k < j → m k = none := by
  intro fuel
  induction fuel with
  | zero => intro i t h; simp [searchAux] at h
  | succ f ih =>
    intro i t h
    simp only [searchAux] at h
    cases hm : m i with
    | some t' =>
      rw [hm] at h
      refine ⟨i, le_refl i, by omega, ?_, ?_⟩
      · cases h; exact hm
      · intro k hk1 hk2; omega
    | none =>
      rw [hm] at h
      rcases ih (i + 1) t h with ⟨j, hj1, hj2, hj3, hj4⟩
      refine ⟨j, by omega, by omega, hj3, ?_⟩
      intro k hk1 hk2
      rcases Nat.eq_or_lt_of_le hk1 with h1 | h1
      · subst h1; exact hm
      · exact hj4 k h1 hk2

theorem searchAux_of_found (m : Nat → Option Tok) :
    ∀ fuel i j t, i ≤ j → j < i + fuel → m j = some t →
      (∀ k, i ≤ k → k < j → m k = none) → searchAux m fuel i = some t := by
  intro fuel
  induction fuel with
  | zero => intro i j t h1 h2; omega
  | succ f ih =>
    intro i j t h1 h2 h3 h4
    simp only [searchAux]
    rcases Nat.eq_or_lt_of_le h1 with h | h
    · subst h; rw [h3]
    · rw [h4 i (le_refl i) h]
      exact ih (i + 1) j t h (by omega) h3 (fun k hk1 hk2 => h4 k (by omega) hk2)

/-! ### Matcher well-formedness -/

theorem commentStop_bounds {txt : List Char} {i : Nat} (hi : i < txt.length) :
    i < commentStop txt i ∧ commentStop txt i ≤ txt.length := by
  unfold commentStop
  have hr : runLen (fun c => c != '\n') (txt.drop (i + 1)) ≤ txt.length - (i + 1) := by
    have := runLen_le (fun c => c != '\n') (txt.drop (i + 1))
    simpa using this
  split
  · next hnl =>
    have := get?_some_lt hnl
    omega
  · omega

theorem matchComment_wf {txt : List Char} {i : Nat} {t : Tok}
    (h : matchComment txt i = some t) :
    t.start = i ∧ i < t.stop ∧ t.stop ≤ txt.length ∧ tokPat t = some .comment := by
  unfold matchComment at h
  split at h
  · next hc =>
    have hi : i < txt.length := get?_some_lt hc
    have hb := commentStop_bounds hi
    injection h with h'
    subst h'
    exact ⟨rfl, hb.1, hb.2, rfl⟩
  · cases h

theorem matchCommand_wf {txt : List Char} {i : Nat} {t : Tok}
    (h : matchCommand txt i = some t) :
    t.start = i ∧ i < t.stop ∧ t.stop ≤ txt.length ∧ tokPat t = some .command := by
  unfold matchCommand at h
  split at h
  · next hc =>
    have hi : i < txt.length := get?_some_lt hc
    have hr : runLen isCmdChar (txt.drop (i + 1)) ≤ txt.length - (i + 1) := by
      have := runLen_le isCmdChar (txt.drop (i + 1))
      simpa using this
    split at h
    · injection h with h'
      subst h'
      refine ⟨rfl, ?_, ?_, rfl⟩
      · show i < i + 1 + runLen isCmdChar (txt.drop (i + 1))
        omega
      · show i + 1 + runLen isCmdChar (txt.drop (i + 1)) ≤ txt.length
        omega
    · split at h
      · next c hc2 =>
        split at h
        · cases h
        · injection h with h'
          subst h'
          have := get?_some_lt hc2
          refine ⟨rfl, ?_, ?_, rfl⟩
          · show i < i + 2
            omega
          · show i + 2 ≤ txt.length
            omega
      · cases h
  · cases h

theorem matchParam_wf {txt : List Char} {i : Nat} {t : Tok}
    (h : matchParam txt i = some t) :
    t.start = i ∧ i < t.stop ∧ t.stop ≤ txt.length ∧ tokPat t = some .param := by
  unfold matchParam at h
  split at h
  · next hc =>
    split at h
    · next d hd =>
      split at h
      · injection h with h'
        subst h'
        have := get?_some_lt hd
        refine ⟨rfl, ?_, ?_, rfl⟩
        · show i < i + runLen (fun c => c == '#') (txt.drop i) + 1
          omega
        · show i + runLen (fun c => c == '#') (txt.drop i) + 1 ≤ txt.length
          omega
      · cases h
    · cases h
  · cases h

theorem matchLcb_wf {txt : List Char} {i : Nat} {t : Tok}
    (h : matchLcb txt i = some t) :
    t.start = i ∧ i < t.stop ∧ t.stop ≤ txt.length ∧ tokPat t = some .lcb := by
  unfold matchLcb at h
  split at h
  · next hc =>
    split at h
    · injection h with h'
      subst h'
      have := get?_some_lt hc
      refine ⟨rfl, ?_, ?_, rfl⟩
      · show i < i + 1
        omega
      · show i + 1 ≤ txt.length
        omega
    · cases h
  · cases h

theorem matchRcb_wf {txt : List Char} {i : Nat} {t : Tok}
    (h : matchRcb txt i = some t) :
    t.start = i ∧ i < t.stop ∧ t.stop ≤ txt.length ∧ tokPat t = some .rcb := by
  unfold matchRcb at h
  split at h
  · next hc =>
    split at h
    · injection h with h'
      subst h'
      have := get?_some_lt hc
      refine ⟨rfl, ?_, ?_, rfl⟩
      · show i < i + 1
        omega
      · show i + 1 ≤ txt.length
        omega
    · cases h
  · cases h

theorem matchWs_wf {txt : List Char} {i : Nat} {t : Tok}
    (h : matchWs txt i = some t) :
    t.start = i ∧ i < t.stop ∧ t.stop ≤ txt.length ∧ tokPat t = some .ws := by
  unfold matchWs at h
  split at h
  · next c hc =>
    split at h
    · next hcond =>
      injection h with h'
      subst h'
      have hi : i < txt.length := get?_some_lt hc
      have hr : runLen isPySpace (txt.drop i) ≤ txt.length - i := by
        have := runLen_le isPySpace (txt.drop i)
        simpa using this
      have hsp : isPySpace c = true := by
        have := hcond
        simp only [Bool.and_eq_true] at this
        exact this.1
      have hpos : 1 ≤ runLen isPySpace (txt.drop i) := by
        have hdrop : txt.drop i = c :: txt.drop (i + 1) := drop_eq_cons_of_get? hc
        rw [hdrop]
        simp [runLen, hsp]
      refine ⟨rfl, ?_, ?_, rfl⟩
      · show i < i + runLen isPySpace (txt.drop i)
        omega
      · show i + runLen isPySpace (txt.drop i) ≤ txt.length
        omega
    · cases h
  · cases h

theorem matchAt_wf {txt : List Char} {p : Pat} {i : Nat} {t : Tok}
    (h : matchAt txt p i = some t) :
    t.start = i ∧ i < t.stop ∧ t.stop ≤ txt.length ∧ tokPat t = some p := by
  cases p with
  | comment => exact matchComment_wf h
  | command => exact matchCommand_wf h
  | param => exact matchParam_wf h
  | lcb => exact matchLcb_wf h
  | rcb => exact matchRcb_wf h
  | ws => exact matchWs_wf h

theorem matchAt_none_of_len {txt : List Char} {p : Pat} {i : Nat}
    (h : txt.length ≤ i) : matchAt txt p i = none := by
  have hg : txt.get? i = none := List.get?_eq_none.mpr h
  have hg2 : txt[i]? = none := by
    rw [← List.get?_eq_getElem?]
    exact hg
  cases p <;>
    simp [matchAt, matchComment, matchCommand, matchParam, matchLcb, matchRcb, matchWs, hg, hg2]

/-! ### Search facts -/

theorem searchPat_wf {txt : List Char} {p : Pat} {pos : Nat} {t : Tok}
    (h : searchPat txt p pos = some t) :
    pos ≤ t.start ∧ t.start < t.stop ∧ t.stop ≤ txt.length ∧ tokPat t = some p ∧
      matchAt txt p t.start = some t ∧
      ∀ k, pos ≤ k → k < t.start → matchAt txt p k = none := by
  unfold searchPat at h
  rcases searchAux_some _ _ _ _ h with ⟨j, hj1, _, hj3, hj4⟩
  rcases matchAt_wf hj3 with ⟨hst, hlt, hle, hpat⟩
  subst hst
  exact ⟨hj1, hlt, hle, hpat, hj3, hj4⟩

theorem searchPat_none_iff {txt : List Char} {p : Pat} {pos : Nat} :
    searchPat txt p pos = none ↔ ∀ k, pos ≤ k → matchAt txt p k = none := by
  unfold searchPat
  rw [searchAux_none_iff]
  constructor
  · intro h k hk
    by_cases hk2 : k < pos + (txt.length - pos)
    · exact h k hk hk2
    · exact matchAt_none_of_len (by omega)
  · intro h k hk _
    exact h k hk

theorem searchPat_mono_none {txt : List Char} {p : Pat} {a b : Nat}
    (h : searchPat txt p a = none) (hab : a ≤ b) : searchPat txt p b = none := by
  rw [searchPat_none_iff] at h ⊢
  exact fun k hk => h k (by omega)

theorem searchPat_keep {txt : List Char} {p : Pat} {a b : Nat} {t : Tok}
    (h : searchPat txt p a = some t) (hab : a ≤ b) (hbt : b ≤ t.start) :
    searchPat txt p b = some t := by
  rcases searchPat_wf h with ⟨_, hlt, hle, _, hm, hnone⟩
  unfold searchPat
  refine searchAux_of_found _ _ _ t.start _ hbt ?_ hm ?_
  · omega
  · intro k hk1 hk2
    exact hnone k (by omega) hk2

/-- The cached-token update of the source equals a fresh search of every
pattern from the new position: this is the key invariant of the cached
tokenizer. -/
theorem updateToks_spec (txt : List Char) {a b : Nat} (hab : a ≤ b) :
    ∀ ps : List Pat,
      updateToks txt b (ps.filterMap (fun p => searchPat txt p a)) =
        ps.filterMap (fun p => searchPat txt p b) := by
  intro ps
  induction ps with
  | nil => rfl
  | cons p ps ih =>
    unfold updateToks at ih ⊢
    rw [List.filterMap_cons, List.filterMap_cons]
    cases hs : searchPat txt p a with
    | none =>
      rw [searchPat_mono_none hs hab]
      exact ih
    | some t =>
      have hpat : tokPat t = some p := (searchPat_wf hs).2.2.2.1
      rw [List.filterMap_cons]
      by_cases hb : b ≤ t.start
      · rw [if_pos hb, searchPat_keep hs hab hb, ih]
      · simp only [if_neg hb, hpat]
        cases hsb : searchPat txt p b with
        | none => rw [ih]
        | some v => rw [ih]

theorem minTok_mem : ∀ (ts : List Tok) (t0 : Tok), minTok t0 ts ∈ t0 :: ts := by
  intro ts
  induction ts with
  | nil => intro t0; simp [minTok]
  | cons t ts ih =>
    intro t0
    simp only [minTok]
    rcases List.mem_cons.mp (ih (if t.start < t0.start then t else t0)) with h | h
    · rw [h]
      split
      · simp
      · simp
    · simp [h]

theorem cands_wf {txt : List Char} {i : Nat} {t : Tok}
    (h : t ∈ patterns.filterMap (fun p => searchPat txt p i)) :
    ∃ p, searchPat txt p i = some t := by
  rcases List.mem_filterMap.mp h with ⟨p, _, hp⟩
  exact ⟨p, hp⟩

/-- The cached tokenizer loop emits exactly what the specification loop
emits, provided the cache holds each pattern's fresh search result. -/
theorem tokLoop_eq_spec (txt : List Char) :
    ∀ fuel i, tokLoop txt fuel i (patterns.filterMap (fun p => searchPat txt p i)) =
      tokLoopSpec txt fuel i := by
  intro fuel
  induction fuel with
  | zero => intro i; rfl
  | succ f ih =>
    intro i
    cases hc : patterns.filterMap (fun p => searchPat txt p i) with
    | nil => simp only [tokLoop, tokLoopSpec, hc]
    | cons t0 ts =>
      have hmem : minTok t0 ts ∈ t0 :: ts := minTok_mem ts t0
      rw [← hc] at hmem
      rcases cands_wf hmem with ⟨p, hp⟩
      have hwf := searchPat_wf hp
      have hstop : i ≤ (minTok t0 ts).stop := by omega
      have hupd : updateToks txt (minTok t0 ts).stop (t0 :: ts) =
          patterns.filterMap (fun p => searchPat txt p (minTok t0 ts).stop) := by
        rw [← hc]
        exact updateToks_spec txt hstop patterns
      simp only [tokLoop, tokLoopSpec, hc, hupd, ih]

/-- `Tokenizer.tokenize` behaves exactly as specified: at every step it
emits the candidate with the smallest start position at or after the scan
position, ties broken by pattern order. -/
theorem tokenize_eq_spec (txt : List Char) : tokenize txt = tokenizeSpec txt := by
  unfold tokenize tokenizeSpec initToks
  exact tokLoop_eq_spec txt (txt.length + 1) 0

/-! ### Coverage: tokens tile the text -/

theorem tokLoopSpec_covers (txt : List Char) :
    ∀ fuel i, i ≤ txt.length → txt.length - i < fuel →
      covers (tokLoopSpec txt fuel i) i txt.length = true := by
  intro fuel
  induction fuel with
  | zero => intro i _ h2; omega
  | succ f ih =>
    intro i h1 h2
    cases hc : patterns.filterMap (fun p => searchPat txt p i) with
    | nil =>
      simp only [tokLoopSpec, hc]
      split
      · simp [covers]
        omega
      · next h3 =>
        have : i = txt.length := by omega
        simp [covers, this]
    | cons t0 ts =>
      simp only [tokLoopSpec, hc]
      split
      · next hlen =>
        have hmem : minTok t0 ts ∈ t0 :: ts := minTok_mem ts t0
        rw [← hc] at hmem
        rcases cands_wf hmem with ⟨p, hp⟩
        have hwf := searchPat_wf hp
        have hrec : covers (tokLoopSpec txt f (minTok t0 ts).stop) (minTok t0 ts).stop
            txt.length = true := by
          refine ih (minTok t0 ts).stop (by omega) (by omega)
        by_cases hgap : i < (minTok t0 ts).start
        · rw [if_pos hgap]
          simp only [List.cons_append, List.nil_append, covers]
          rw [hrec]
          simp
          omega
        · rw [if_neg hgap]
          simp only [List.nil_append, covers]
          rw [hrec]
          simp
          omega
      · next h3 =>
        have : i = txt.length := by omega
        simp [covers, this]

/-- The token sequence of `tokenize` tiles the whole text: consecutive
spans, starting at 0, ending at the length. -/
theorem tokenize_covers (txt : List Char) :
    covers (tokenize txt) 0 txt.length = true := by
  rw [tokenize_eq_spec]
  exact tokLoopSpec_covers txt (txt.length + 1) 0 (by omega) (by omega)

theorem covers_le {ts : List Tok} : ∀ {a b : Nat}, covers ts a b = true → a ≤ b := by
  induction ts with
  | nil =>
    intro a b h
    simp [covers] at h
    omega
  | cons t ts ih =>
    intro a b h
    simp only [covers, Bool.and_eq_true] at h
    rcases h with ⟨⟨h1, h2⟩, h3⟩
    have := ih h3
    have h1' : t.start = a := by simpa using h1
    have h2' : a ≤ t.stop := by simpa using h2
    omega

theorem covers_concat (txt : List Char) {ts : List Tok} :
    ∀ {a b : Nat}, covers ts a b = true →
      tokensText txt ts = sliceN txt a b := by
  induction ts with
  | nil =>
    intro a b h
    simp [covers] at h
    subst h
    simp [tokensText, sliceN_self]
  | cons t ts ih =>
    intro a b h
    simp only [covers, Bool.and_eq_true] at h
    rcases h with ⟨⟨h1, h2⟩, h3⟩
    have h1' : t.start = a := by simpa using h1
    have h2' : a ≤ t.stop := by simpa using h2
    have hbd := covers_le h3
    unfold tokensText at ih ⊢
    simp only [List.join] at ih ⊢
    rw [List.map_cons, List.flatten_cons, ih h3, h1', sliceN_append h2' hbd]

/-- The concatenation of the spans of all tokens (no-match tokens
included) is exactly the input text. -/
theorem tokensText_tokenize (txt : List Char) :
    tokensText txt (tokenize txt) = txt := by
  rw [covers_concat txt (tokenize_covers txt), sliceN_full]

/-! ### Each token renders back to its own source span -/

theorem digit_intChars {d : Char} (h : d.isDigit = true) :
    intChars ((d.toNat : Int) - 48) = [d] := by
  have hb : 48 ≤ d.toNat ∧ d.toNat ≤ 57 := by
    simp [Char.isDigit] at h
    exact h
  have hd : Char.ofNat d.toNat = d := Char.ofNat_toNat d
  obtain ⟨h1, h2⟩ := hb
  rw [← hd]
  generalize d.toNat = n at h1 h2
  interval_cases n <;> decide

theorem matchAt_emitStr {txt : List Char} {p : Pat} {i : Nat} {t : Tok}
    (h : matchAt txt p i = some t) :
    emitStr txt t = sliceN txt t.start t.stop := by
  cases p with
  | comment =>
    replace h : matchComment txt i = some t := h
    unfold matchComment at h
    split at h
    · next hc =>
      injection h with h'
      subst h'
      have hi : i < txt.length := get?_some_lt hc
      have hb := commentStop_bounds hi
      simp only [emitStr]
      rw [sliceN_cons hc hb.1]
    · cases h
  | command =>
    replace h : matchCommand txt i = some t := h
    unfold matchCommand at h
    split at h
    · next hc =>
      split at h
      · injection h with h'
        subst h'
        simp only [emitStr]
        rw [sliceN_cons hc (by omega)]
      · split at h
        · next c hc2 =>
          split at h
          · cases h
          · injection h with h'
            subst h'
            simp only [emitStr]
            rw [sliceN_cons hc (by omega), sliceN_cons hc2 (by omega), sliceN_self]
        · cases h
    · cases h
  | param =>
    replace h : matchParam txt i = some t := h
    unfold matchParam at h
    split at h
    · next hc =>
      split at h
      · next d hd =>
        split at h
        · next hdig =>
          injection h with h'
          subst h'
          simp only [emitStr]
          rw [digit_intChars hdig]
          have hrun : sliceN txt i (i + runLen (fun c => c == '#') (txt.drop i)) =
              List.replicate (runLen (fun c => c == '#') (txt.drop i)) '#' := by
            unfold sliceN
            have : i + runLen (fun c => c == '#') (txt.drop i) - i =
                runLen (fun c => c == '#') (txt.drop i) := by omega
            rw [this, take_hash_run]
          have hsplit : sliceN txt i (i + runLen (fun c => c == '#') (txt.drop i) + 1) =
              sliceN txt i (i + runLen (fun c => c == '#') (txt.drop i)) ++
                sliceN txt (i + runLen (fun c => c == '#') (txt.drop i))
                  (i + runLen (fun c => c == '#') (txt.drop i) + 1) := by
            rw [sliceN_append (by omega) (by omega)]
          rw [hsplit, hrun, sliceN_cons hd (by omega), sliceN_self]
        · cases h
      · cases h
    · cases h
  | lcb =>
    replace h : matchLcb txt i = some t := h
    unfold matchLcb at h
    split at h
    · next hc =>
      split at h
      · injection h with h'
        subst h'
        simp only [emitStr]
        rw [sliceN_cons hc (by omega), sliceN_self]
      · cases h
    · cases h
  | rcb =>
    replace h : matchRcb txt i = some t := h
    unfold matchRcb at h
    split at h
    · next hc =>
      split at h
      · injection h with h'
        subst h'
        simp only [emitStr]
        rw [sliceN_cons hc (by omega), sliceN_self]
      · cases h
    · cases h
  | ws =>
    replace h : matchWs txt i = some t := h
    unfold matchWs at h
    split at h
    · next c hc =>
      split at h
      · injection h with h'
        subst h'
        rfl
      · cases h
    · cases h

/-- Every token the specification tokenizer emits renders back to its own
source span. -/
theorem tokLoopSpec_emitStr (txt : List Char) :
    ∀ fuel i t, t ∈ tokLoopSpec txt fuel i →
      emitStr txt t = sliceN txt t.start t.stop := by
  intro fuel
  induction fuel with
  | zero => intro i t h; simp [tokLoopSpec] at h
  | succ f ih =>
    intro i t h
    cases hc : patterns.filterMap (fun p => searchPat txt p i) with
    | nil =>
      simp only [tokLoopSpec, hc] at h
      split at h
      · rcases List.mem_singleton.mp h with h'
        subst h'
        rfl
      · simp at h
    | cons t0 ts =>
      simp only [tokLoopSpec, hc] at h
      split at h
      · have hmem : minTok t0 ts ∈ t0 :: ts := minTok_mem ts t0
        rw [← hc] at hmem
        rcases cands_wf hmem with ⟨p, hp⟩
        have hwf := searchPat_wf hp
        rcases List.mem_append.mp h with h' | h'
        · split at h'
          · rcases List.mem_singleton.mp h' with h''
            subst h''
            rfl
          · simp at h'
        · rcases List.mem_cons.mp h' with h'' | h''
          · subst h''
            exact matchAt_emitStr hwf.2.2.2.2.1
          · exact ih _ t h''
      · simp at h

/-- Every token of `tokenize` renders back to its own source span. -/
theorem tokenize_emitStr (txt : List Char) {t : Tok} (h : t ∈ tokenize txt) :
    emitStr txt t = sliceN txt t.start t.stop := by
  rw [tokenize_eq_spec] at h
  exact tokLoopSpec_emitStr txt _ _ t h

/-! ### The builder renders its input back (round trip) -/

theorem strList_append (a b : List Node) :
    strList (a ++ b) = strList a ++ strList b := by
  induction a with
  | nil => rfl
  | cons x xs ih => simp [strList, ih]

theorem renderAcc_cons (x : Node) (acc : List Node) :
    renderAcc (x :: acc) = renderAcc acc ++ strNode x := by
  unfold renderAcc
  rw [List.reverse_cons, strList_append]
  simp [strList]

theorem pend_cons (stack : List (List Node)) (x : Node) (p : List Node) :
    pend stack (x :: p) = pend stack p ++ strNode x := by
  cases stack with
  | nil => exact renderAcc_cons x p
  | cons q rest =>
    simp only [pend, renderAcc_cons x p]
    simp

theorem param_build_str (h : Nat) (idx : Int) :
    strNode (.param ⟨(h : Int), 0⟩ idx) = List.replicate h '#' ++ intChars idx := by
  simp [strNode, HashCount.intVal]

/-- The builder invariant: while the remaining brace tokens close every
group opened from the current nesting depth and end at depth 0, the final
tree renders the pending prefix followed by every remaining token's
rendering. -/
theorem build_str (txt : List Char) :
    ∀ ts acc stack, balancedFrom (braceSig ts) stack.length = true →
      (build txt ts acc stack).map strNode = .ok (pend stack acc ++ emitAll txt ts) := by
  intro ts
  induction ts with
  | nil =>
    intro acc stack hbal
    simp only [braceSig, List.filterMap_nil, balancedFrom] at hbal
    have : stack = [] := List.length_eq_zero.mp (by simpa using hbal)
    subst this
    simp [build, Except.map, emitAll, pend, renderAcc, strNode]
  | cons t ts ih =>
    intro acc stack hbal
    have hemit : emitAll txt (t :: ts) = emitStr txt t ++ emitAll txt ts := by
      simp [emitAll]
    cases hd : t.data with
    | noMatch =>
      have hsig : braceSig (t :: ts) = braceSig ts := by simp [braceSig, hd]
      rw [hsig] at hbal
      simp only [build, hd]
      rw [ih _ _ hbal, hemit, pend_cons]
      simp [strNode, emitStr, hd]
    | ws =>
      have hsig : braceSig (t :: ts) = braceSig ts := by simp [braceSig, hd]
      rw [hsig] at hbal
      simp only [build, hd]
      rw [ih _ _ hbal, hemit, pend_cons]
      simp [strNode, emitStr, hd]
    | comment rest =>
      have hsig : braceSig (t :: ts) = braceSig ts := by simp [braceSig, hd]
      rw [hsig] at hbal
      simp only [build, hd]
      rw [ih _ _ hbal, hemit, pend_cons]
      simp [strNode, emitStr, hd]
    | command name =>
      have hsig : braceSig (t :: ts) = braceSig ts := by simp [braceSig, hd]
      rw [hsig] at hbal
      simp only [build, hd]
      rw [ih _ _ hbal, hemit, pend_cons]
      simp [strNode, emitStr, hd]
    | param hh d =>
      have hsig : braceSig (t :: ts) = braceSig ts := by simp [braceSig, hd]
      rw [hsig] at hbal
      simp only [build, hd]
      rw [ih _ _ hbal, hemit, pend_cons, param_build_str]
      simp [emitStr, hd]
    | lcb =>
      have hsig : braceSig (t :: ts) = true :: braceSig ts := by simp [braceSig, hd]
      rw [hsig] at hbal
      simp only [balancedFrom] at hbal
      simp only [build, hd]
      have := ih [] (acc :: stack) (by simpa using hbal)
      rw [this, hemit]
      simp [pend, emitStr, hd, renderAcc, strList]
    | rcb =>
      have hsig : braceSig (t :: ts) = false :: braceSig ts := by simp [braceSig, hd]
      rw [hsig] at hbal
      simp only [balancedFrom, Bool.and_eq_true, decide_eq_true_eq] at hbal
      obtain ⟨hpos, hbal⟩ := hbal
      cases stack with
      | nil => simp at hpos
      | cons p stack' =>
        simp only [build, hd]
        have := ih (Node.bracket acc.reverse :: p) stack'
          (by simpa using hbal)
        rw [this, hemit, pend_cons]
        simp [pend, emitStr, hd, strNode, renderAcc]

/-- The builder raises `UnbalancedBrackets` exactly when some prefix of
the brace-token string has an excess closing brace relative to the
current nesting depth; otherwise it succeeds. -/
theorem build_dips (txt : List Char) :
    ∀ ts acc stack,
      (dips (braceSig ts) stack.length = true ∧
        build txt ts acc stack = .error .unbalanced) ∨
      (dips (braceSig ts) stack.length = false ∧
        ∃ n, build txt ts acc stack = .ok n) := by
  intro ts
  induction ts with
  | nil =>
    intro acc stack
    right
    refine ⟨by simp [braceSig, dips], ?_⟩
    cases stack with
    | nil => exact ⟨_, rfl⟩
    | cons p rest => exact ⟨_, rfl⟩
  | cons t ts ih =>
    intro acc stack
    cases hd : t.data with
    | noMatch =>
      have hsig : braceSig (t :: ts) = braceSig ts := by simp [braceSig, hd]
      rw [hsig]
      simpa only [build, hd] using ih _ stack
    | ws =>
      have hsig : braceSig (t :: ts) = braceSig ts := by simp [braceSig, hd]
      rw [hsig]
      simpa only [build, hd] using ih _ stack
    | comment rest =>
      have hsig : braceSig (t :: ts) = braceSig ts := by simp [braceSig, hd]
      rw [hsig]
      simpa only [build, hd] using ih _ stack
    | command name =>
      have hsig : braceSig (t :: ts) = braceSig ts := by simp [braceSig, hd]
      rw [hsig]
      simpa only [build, hd] using ih _ stack
    | param hh d =>
      have hsig : braceSig (t :: ts) = braceSig ts := by simp [braceSig, hd]
      rw [hsig]
      simpa only [build, hd] using ih _ stack
    | lcb =>
      have hsig : braceSig (t :: ts) = true :: braceSig ts := by simp [braceSig, hd]
      rw [hsig]
      simp only [dips]
      simpa only [build, hd] using ih [] (acc :: stack)
    | rcb =>
      have hsig : braceSig (t :: ts) = false :: braceSig ts := by simp [braceSig, hd]
      rw [hsig]
      simp only [dips]
      cases stack with
      | nil =>
        left
        simp only [build, hd]
        simp
      | cons p stack' =>
        have := ih (Node.bracket acc.reverse :: p) stack'
        simp only [build, hd]
        simp only [List.length_cons]
        rcases this with ⟨h1, h2⟩ | ⟨h1, h2⟩
        · left
          constructor
          · simp only [Nat.add_sub_cancel]
            simp [h1]
          · exact h2
        · right
          constructor
          · simp only [Nat.add_sub_cancel]
            simp [h1]
          · exact h2

/-! ### Round trip and unbalanced-bracket characterisation -/

theorem emitAll_tokenize (txt : List Char) : emitAll txt (tokenize txt) = txt := by
  unfold emitAll
  have hmap : (tokenize txt).map (emitStr txt) =
      (tokenize txt).map (fun t => sliceN txt t.start t.stop) :=
    List.map_congr_left (fun t ht => tokenize_emitStr txt ht)
  rw [hmap]
  exact tokensText_tokenize txt

/-- Round trip over the token-level balance hypothesis. -/
theorem toAst_roundtrip {txt : List Char}
    (h : balancedFrom (braceSig (tokenize txt)) 0 = true) :
    (toAst txt).map strNode = .ok txt := by
  unfold toAst
  have := build_str txt (tokenize txt) [] [] (by simpa using h)
  rw [this]
  simp [pend, renderAcc, strList, emitAll_tokenize]

/-- `to_ast` raises `UnbalancedBrackets` exactly when the brace tokens dip
below depth zero. -/
theorem toAst_unbalanced_iff (txt : List Char) :
    toAst txt = .error .unbalanced ↔ dips (braceSig (tokenize txt)) 0 = true := by
  unfold toAst
  rcases build_dips txt (tokenize txt) [] [] with ⟨h1, h2⟩ | ⟨h1, h2⟩
  · constructor
    · intro _; simpa using h1
    · intro _; exact h2
  · constructor
    · intro h
      rcases h2 with ⟨n, hn⟩
      rw [h] at hn; cases hn
    · intro h
      rw [show (0 : Nat) = ([] : List (List Node)).length from rfl] at h
      rw [h1] at h
      cases h

/-! ### Copy is the identity on trees (and performs no depth check) -/

mutual

theorem copyNode_eq : ∀ n : Node, copyNode n = n
  | .text _ => rfl
  | .ws _ => rfl
  | .command _ => rfl
  | .comment _ => rfl
  | .param _ _ => rfl
  | .group cs => by rw [copyNode, copyList_eq cs]
  | .bracket cs => by rw [copyNode, copyList_eq cs]

theorem copyList_eq : ∀ cs : List Node, copyList cs = cs
  | [] => rfl
  | n :: ns => by rw [copyList, copyNode_eq n, copyList_eq ns]

end

/-! ### The keep-everything filter: identity up to the depth cap -/

theorem except_bind_ok {α β : Type} (a : α) (f : α → Except Err β) :
    (Except.ok a >>= f) = f a := rfl

theorem except_bind_err {α β : Type} (e : Err) (f : α → Except Err β) :
    ((Except.error e : Except Err α) >>= f) = .error e := rfl

theorem filterRun_keepAll :
    ∀ fuel level cs, countL cs < fuel → level ≤ 256 →
      (gdepthL cs + level ≤ 256 →
        filterRun keepAllRule fuel level () cs = .ok (cs, ())) ∧
      (256 < gdepthL cs + level →
        filterRun keepAllRule fuel level () cs = .error .recursionLimit) := by
  intro fuel
  induction fuel with
  | zero =>
    intro level cs hc
    omega
  | succ f ih =>
    intro level cs hc hlev
    cases cs with
    | nil =>
      constructor
      · intro _; rfl
      · intro hgt; simp [gdepthL] at hgt; omega
    | cons n rest =>
      have hcrest : countL rest < f := by
        simp only [countL] at hc
        have hn1 : 1 ≤ countN n := by
          cases n <;> simp [countN]
        omega
      cases n with
      | text s =>
        obtain ⟨hok, herr⟩ := ih level rest hcrest hlev
        constructor
        · intro hle
          have : gdepthL rest + level ≤ 256 := by
            simp only [gdepthL, gdepth] at hle; omega
          simp only [filterRun, keepAllRule, except_bind_ok, except_bind_err]
          rw [hok this]
          rfl
        · intro hgt
          have : 256 < gdepthL rest + level := by
            simp only [gdepthL, gdepth] at hgt; omega
          simp only [filterRun, keepAllRule, except_bind_ok, except_bind_err]
          rw [herr this]
          rfl
      | ws s =>
        obtain ⟨hok, herr⟩ := ih level rest hcrest hlev
        constructor
        · intro hle
          have : gdepthL rest + level ≤ 256 := by
            simp only [gdepthL, gdepth] at hle; omega
          simp only [filterRun, keepAllRule, except_bind_ok, except_bind_err]
          rw [hok this]
          rfl
        · intro hgt
          have : 256 < gdepthL rest + level := by
            simp only [gdepthL, gdepth] at hgt; omega
          simp only [filterRun, keepAllRule, except_bind_ok, except_bind_err]
          rw [herr this]
          rfl
      | command s =>
        obtain ⟨hok, herr⟩ := ih level rest hcrest hlev
        constructor
        · intro hle
          have : gdepthL rest + level ≤ 256 := by
            simp only [gdepthL, gdepth] at hle; omega
          simp only [filterRun, keepAllRule, except_bind_ok, except_bind_err]
          rw [hok this]
          rfl
        · intro hgt
          have : 256 < gdepthL rest + level := by
            simp only [gdepthL, gdepth] at hgt; omega
          simp only [filterRun, keepAllRule, except_bind_ok, except_bind_err]
          rw [herr this]
          rfl
      | comment s =>
        obtain ⟨hok, herr⟩ := ih level rest hcrest hlev
        constructor
        · intro hle
          have : gdepthL rest + level ≤ 256 := by
            simp only [gdepthL, gdepth] at hle; omega
          simp only [filterRun, keepAllRule, except_bind_ok, except_bind_err]
          rw [hok this]
          rfl
        · intro hgt
          have : 256 < gdepthL rest + level := by
            simp only [gdepthL, gdepth] at hgt; omega
          simp only [filterRun, keepAllRule, except_bind_ok, except_bind_err]
          rw [herr this]
          rfl
      | param hh idx =>
        obtain ⟨hok, herr⟩ := ih level rest hcrest hlev
        constructor
        · intro hle
          have : gdepthL rest + level ≤ 256 := by
            simp only [gdepthL, gdepth] at hle; omega
          simp only [filterRun, keepAllRule, except_bind_ok, except_bind_err]
          rw [hok this]
          rfl
        · intro hgt
          have : 256 < gdepthL rest + level := by
            simp only [gdepthL, gdepth] at hgt; omega
          simp only [filterRun, keepAllRule, except_bind_ok, except_bind_err]
          rw [herr this]
          rfl
      | group cs' =>
        have hcin : countL cs' < f := by
          simp only [countL, countN] at hc
          omega
        obtain ⟨hokr, herrr⟩ := ih level rest hcrest hlev
        constructor
        · intro hle
          have hle1 : gdepthL cs' + (level + 1) ≤ 256 := by
            simp only [gdepthL, gdepth] at hle; omega
          have hle2 : gdepthL rest + level ≤ 256 := by
            simp only [gdepthL, gdepth] at hle; omega
          obtain ⟨hoki, _⟩ := ih (level + 1) cs' hcin (by omega)
          simp only [filterRun, keepAllRule, except_bind_ok, except_bind_err]
          rw [if_neg (by omega), hoki hle1, hokr hle2]
          rfl
        · intro hgt
          by_cases hlev1 : 256 < level + 1
          · simp only [filterRun, keepAllRule, except_bind_ok, except_bind_err]
            rw [if_pos hlev1]
          · by_cases hin : gdepthL cs' + (level + 1) ≤ 256
            · obtain ⟨hoki, _⟩ := ih (level + 1) cs' hcin (by omega)
              have : 256 < gdepthL rest + level := by
                simp only [gdepthL, gdepth] at hgt; omega
              simp only [filterRun, keepAllRule, except_bind_ok, except_bind_err]
              rw [if_neg hlev1, hoki hin, herrr this]
              rfl
            · obtain ⟨_, herri⟩ := ih (level + 1) cs' hcin (by omega)
              simp only [filterRun, keepAllRule, except_bind_ok, except_bind_err]
              rw [if_neg hlev1, herri (by omega)]
              rfl
      | bracket cs' =>
        have hcin : countL cs' < f := by
          simp only [countL, countN] at hc
          omega
        obtain ⟨hokr, herrr⟩ := ih level rest hcrest hlev
        constructor
        · intro hle
          have hle1 : gdepthL cs' + (level + 1) ≤ 256 := by
            simp only [gdepthL, gdepth] at hle; omega
          have hle2 : gdepthL rest + level ≤ 256 := by
            simp only [gdepthL, gdepth] at hle; omega
          obtain ⟨hoki, _⟩ := ih (level + 1) cs' hcin (by omega)
          simp only [filterRun, keepAllRule, except_bind_ok, except_bind_err]
          rw [if_neg (by omega), hoki hle1, hokr hle2]
          rfl
        · intro hgt
          by_cases hlev1 : 256 < level + 1
          · simp only [filterRun, keepAllRule, except_bind_ok, except_bind_err]
            rw [if_pos hlev1]
          · by_cases hin : gdepthL cs' + (level + 1) ≤ 256
            · obtain ⟨hoki, _⟩ := ih (level + 1) cs' hcin (by omega)
              have : 256 < gdepthL rest + level := by
                simp only [gdepthL, gdepth] at hgt; omega
              simp only [filterRun, keepAllRule, except_bind_ok, except_bind_err]
              rw [if_neg hlev1, hoki hin, herrr this]
              rfl
            · obtain ⟨_, herri⟩ := ih (level + 1) cs' hcin (by omega)
              simp only [filterRun, keepAllRule, except_bind_ok, except_bind_err]
              rw [if_neg hlev1, herri (by omega)]
              rfl

/-! ### Rules that keep a node unchanged make the filter the identity -/

/-- Generic identity run: if the rule keeps every node satisfying `P`
unchanged (state, emission and queue untouched), then on a forest of
`P`-nodes the filter either rebuilds it unchanged or hits the recursion
cap, depending only on the nesting depth. -/
theorem filterRun_id {σ : Type} (r : Rule σ) (st : σ) (P : Node → Bool)
    (hP : ∀ fuel n queue, P n = true → r fuel st n queue = .ok ⟨st, [], some n, queue⟩) :
    ∀ fuel level cs, countL cs < fuel → level ≤ 256 → deepAllL P cs = true →
      (gdepthL cs + level ≤ 256 → filterRun r fuel level st cs = .ok (cs, st)) ∧
      (256 < gdepthL cs + level → filterRun r fuel level st cs = .error .recursionLimit) := by
  intro fuel
  induction fuel with
  | zero =>
    intro level cs hc
    omega
  | succ f ih =>
    intro level cs hc hlev hall
    cases cs with
    | nil =>
      constructor
      · intro _; rfl
      · intro hgt; simp [gdepthL] at hgt; omega
    | cons n rest =>
      have hcrest : countL rest < f := by
        simp only [countL] at hc
        have hn1 : 1 ≤ countN n := by
          cases n <;> simp [countN]
        omega
      simp only [deepAllL, Bool.and_eq_true] at hall
      obtain ⟨hPn, hPrest⟩ := hall
      have hstep : r f st n rest = .ok ⟨st, [], some n, rest⟩ := by
        apply hP
        cases n <;> simp only [deepAllN, Bool.and_eq_true] at hPn
        all_goals first
          | exact hPn
          | exact hPn.1
      obtain ⟨hokr, herrr⟩ := ih level rest hcrest hlev hPrest
      cases n with
      | group cs' =>
        have hcin : countL cs' < f := by
          simp only [countL, countN] at hc
          omega
        have hallin : deepAllL P cs' = true := by
          simp only [deepAllN, Bool.and_eq_true] at hPn
          exact hPn.2
        constructor
        · intro hle
          have hle1 : gdepthL cs' + (level + 1) ≤ 256 := by
            simp only [gdepthL, gdepth] at hle; omega
          have hle2 : gdepthL rest + level ≤ 256 := by
            simp only [gdepthL, gdepth] at hle; omega
          obtain ⟨hoki, _⟩ := ih (level + 1) cs' hcin (by omega) hallin
          simp only [filterRun, hstep, except_bind_ok]
          rw [if_neg (by omega), hoki hle1, hokr hle2]
          rfl
        · intro hgt
          by_cases hlev1 : 256 < level + 1
          · simp only [filterRun, hstep, except_bind_ok]
            rw [if_pos hlev1]
          · by_cases hin : gdepthL cs' + (level + 1) ≤ 256
            · obtain ⟨hoki, _⟩ := ih (level + 1) cs' hcin (by omega) hallin
              have : 256 < gdepthL rest + level := by
                simp only [gdepthL, gdepth] at hgt; omega
              simp only [filterRun, hstep, except_bind_ok]
              rw [if_neg hlev1, hoki hin, herrr this]
              rfl
            · obtain ⟨_, herri⟩ := ih (level + 1) cs' hcin (by omega) hallin
              simp only [filterRun, hstep, except_bind_ok]
              rw [if_neg hlev1, herri (by omega)]
              rfl
      | bracket cs' =>
        have hcin : countL cs' < f := by
          simp only [countL, countN] at hc
          omega
        have hallin : deepAllL P cs' = true := by
          simp only [deepAllN, Bool.and_eq_true] at hPn
          exact hPn.2
        constructor
        · intro hle
          have hle1 : gdepthL cs' + (level + 1) ≤ 256 := by
            simp only [gdepthL, gdepth] at hle; omega
          have hle2 : gdepthL rest + level ≤ 256 := by
            simp only [gdepthL, gdepth] at hle; omega
          obtain ⟨hoki, _⟩ := ih (level + 1) cs' hcin (by omega) hallin
          simp only [filterRun, hstep, except_bind_ok]
          rw [if_neg (by omega), hoki hle1, hokr hle2]
          rfl
        · intro hgt
          by_cases hlev1 : 256 < level + 1
          · simp only [filterRun, hstep, except_bind_ok]
            rw [if_pos hlev1]
          · by_cases hin : gdepthL cs' + (level + 1) ≤ 256
            · obtain ⟨hoki, _⟩ := ih (level + 1) cs' hcin (by omega) hallin
              have : 256 < gdepthL rest + level := by
                simp only [gdepthL, gdepth] at hgt; omega
              simp only [filterRun, hstep, except_bind_ok]
              rw [if_neg hlev1, hoki hin, herrr this]
              rfl
            · obtain ⟨_, herri⟩ := ih (level + 1) cs' hcin (by omega) hallin
              simp only [filterRun, hstep, except_bind_ok]
              rw [if_neg hlev1, herri (by omega)]
              rfl
      | text s =>
        constructor
        · intro hle
          have : gdepthL rest + level ≤ 256 := by
            simp only [gdepthL, gdepth] at hle; omega
          simp only [filterRun, hstep, except_bind_ok]
          rw [hokr this]
          rfl
        · intro hgt
          have : 256 < gdepthL rest + level := by
            simp only [gdepthL, gdepth] at hgt; omega
          simp only [filterRun, hstep, except_bind_ok]
          rw [herrr this]
          rfl
      | ws s =>
        constructor
        · intro hle
          have : gdepthL rest + level ≤ 256 := by
            simp only [gdepthL, gdepth] at hle; omega
          simp only [filterRun, hstep, except_bind_ok]
          rw [hokr this]
          rfl
        · intro hgt
          have : 256 < gdepthL rest + level := by
            simp only [gdepthL, gdepth] at hgt; omega
          simp only [filterRun, hstep, except_bind_ok]
          rw [herrr this]
          rfl
      | command s =>
        constructor
        · intro hle
          have : gdepthL rest + level ≤ 256 := by
            simp only [gdepthL, gdepth] at hle; omega
          simp only [filterRun, hstep, except_bind_ok]
          rw [hokr this]
          rfl
        · intro hgt
          have : 256 < gdepthL rest + level := by
            simp only [gdepthL, gdepth] at hgt; omega
          simp only [filterRun, hstep, except_bind_ok]
          rw [herrr this]
          rfl
      | comment s =>
        constructor
        · intro hle
          have : gdepthL rest + level ≤ 256 := by
            simp only [gdepthL, gdepth] at hle; omega
          simp only [filterRun, hstep, except_bind_ok]
          rw [hokr this]
          rfl
        · intro hgt
          have : 256 < gdepthL rest + level := by
            simp only [gdepthL, gdepth] at hgt; omega
          simp only [filterRun, hstep, except_bind_ok]
          rw [herrr this]
          rfl
      | param hh idx =>
        constructor
        · intro hle
          have : gdepthL rest + level ≤ 256 := by
            simp only [gdepthL, gdepth] at hle; omega
          simp only [filterRun, hstep, except_bind_ok]
          rw [hokr this]
          rfl
        · intro hgt
          have : 256 < gdepthL rest + level := by
            simp only [gdepthL, gdepth] at hgt; omega
          simp only [filterRun, hstep, except_bind_ok]
          rw [herrr this]
          rfl

/-! ### `_process` keeps non-special commands (and all other nodes) -/

theorem processRule_nonspecial (fuel : Nat) (tbl : Table) (n : Node) (queue : List Node)
    (hP : notSpecialCmd n = true)
    (hlk : ∀ name, n = .command name → lookupTbl name tbl = none) :
    processRule fuel tbl n queue = .ok ⟨tbl, [], some n, queue⟩ := by
  cases n with
  | command name =>
    have hmem : name ∉ specialNames := by simpa [notSpecialCmd] using hP
    have h1 : ¬ name ∈ defNames := fun h => hmem (by simp [specialNames, h])
    have h2 : ¬(name = "newenvironment".toList ∨ name = "renewenvironment".toList) := by
      rintro (h | h) <;> exact hmem (by simp [specialNames, h])
    have h4 : ¬(name = "begin".toList ∨ name = "end".toList) := by
      rintro (h | h) <;> exact hmem (by simp [specialNames, h])
    simp only [processRule, if_neg h1, if_neg h2, hlk name rfl, if_neg h4]
  | text s => rfl
  | ws s => rfl
  | comment s => rfl
  | param hh idx => rfl
  | group cs => rfl
  | bracket cs => rfl

/-- On a tree without special command names, `Demacro.demacro` with an
empty macro table rebuilds the tree unchanged (provided the tree is within
the depth cap and enough fuel is supplied). -/
theorem demacroEmpty {fuel : Nat} {cs : List Node}
    (hc : countL cs < fuel) (hd : gdepthL cs ≤ 256)
    (hall : deepAllL notSpecialCmd cs = true) :
    demacroTree fuel emptyTbl (.group cs) = .ok (.group cs, emptyTbl) := by
  have hid := filterRun_id processRule emptyTbl notSpecialCmd
    (fun fuel n queue hp => processRule_nonspecial fuel emptyTbl n queue hp
      (fun name _ => rfl))
    fuel 0 cs hc (by omega) hall
  have hrun : filterRun processRule fuel 0 emptyTbl cs = .ok (cs, emptyTbl) :=
    hid.1 (by omega)
  have hclear := (filterRun_keepAll fuel 0 cs hc (by omega)).1 (by omega)
  simp [demacroTree, filterE, clearData, hrun, hclear, Except.map, except_bind_ok]

/-! ### Macro-table dict facts -/

theorem lookupTbl_insert (k : List Char) (v : MacroData) :
    ∀ tbl : Table, lookupTbl k (insertTbl k v tbl) = some v := by
  intro tbl
  induction tbl with
  | nil => simp [insertTbl, lookupTbl]
  | cons kv rest ih =>
    obtain ⟨k', v'⟩ := kv
    simp only [insertTbl]
    by_cases h : k' = k
    · simp [lookupTbl, h]
    · simp [lookupTbl, h, ih]

theorem lookupTbl_insert_ne (k k' : List Char) (v : MacroData) (hne : k' ≠ k) :
    ∀ tbl : Table, lookupTbl k' (insertTbl k v tbl) = lookupTbl k' tbl := by
  intro tbl
  induction tbl with
  | nil =>
    simp only [insertTbl, lookupTbl]
    rw [if_neg (fun h : k = k' => hne h.symm)]
  | cons kv rest ih =>
    obtain ⟨k0, v0⟩ := kv
    simp only [insertTbl]
    by_cases h : k0 = k
    · have hk0 : ¬ k0 = k' := by
        rw [h]
        exact fun hh => hne hh.symm
      simp [lookupTbl, if_pos h, hk0]
    · simp only [if_neg h, lookupTbl]
      split
      · rfl
      · exact ih

/-! ### Processing a macro-definition command -/

/-- Processing `\newcommand`/`\renewcommand`/`\providecommand` whose name
is supplied as a one-command bracket group and whose body is the next
bracket group (no argument-count or default brackets): the definition is
consumed (nothing is kept) and the macro table is updated according to the
particular definition command. -/
theorem processRule_defcmd (fuel : Nat) (tbl : Table) (dc cname : List Char)
    (bodyCs rest : List Node) (hdc : dc ∈ defNames) :
    processRule fuel tbl (.command dc)
        (Node.bracket [Node.command cname] :: Node.bracket bodyCs :: rest) =
      (if dc = "newcommand".toList ∧ memTbl cname tbl then .error .duplicateMacro
       else if dc ≠ "providecommand".toList ∨ ¬ memTbl cname tbl then
         .ok ⟨insertTbl cname ⟨0, none, .tree (.group bodyCs)⟩ tbl, [], none, rest⟩
       else .ok ⟨tbl, [], none, rest⟩) := by
  simp only [processRule, if_pos hdc]
  simp [readCommandName, readNextE, getBracketArgs, filterChildren, skippable,
    takeChildren, except_bind_ok]

theorem except_bind_eta (x : Except Err (List Node × Table)) :
    (do
      let (out, st') ← x
      (Except.ok (out, st') : Except Err (List Node × Table))) = x := by
  cases x with
  | ok p => cases p; rfl
  | error e => rfl

/-! ### The scoping equations of the expansion pass -/

/-- Descending into a kept bracket group: the nested content is processed
with the *current* table (reads see the ancestor's table), and the
siblings after the group are processed with the same current table — the
nested level's final table is discarded when the group closes. -/
theorem filterRun_bracket_step (fuel level : Nat) (tbl : Table)
    (cs rest : List Node) (hlev : level + 1 ≤ 256) :
    filterRun processRule (fuel + 1) level tbl (.bracket cs :: rest) =
      (do
        let (cs', _) ← filterRun processRule fuel (level + 1) tbl cs
        let (out, st') ← filterRun processRule fuel level tbl rest
        .ok (.bracket cs' :: out, st')) := by
  have hstep : processRule fuel tbl (.bracket cs) rest =
      .ok ⟨tbl, [], some (.bracket cs), rest⟩ := rfl
  simp only [filterRun, hstep, except_bind_ok, if_neg (by omega : ¬ 256 < level + 1)]
  cases filterRun processRule fuel (level + 1) tbl cs with
  | ok p => cases p; rfl
  | error e => rfl

/-- A definition made at a level is visible to everything processed later
at that level: the rest of the queue continues with the updated table. -/
theorem filterRun_defcmd_step (fuel level : Nat) (tbl : Table)
    (cname : List Char) (bodyCs rest : List Node)
    (habs : memTbl cname tbl = false) :
    filterRun processRule (fuel + 1) level tbl
        (.command "newcommand".toList :: Node.bracket [Node.command cname] ::
          Node.bracket bodyCs :: rest) =
      filterRun processRule fuel level
        (insertTbl cname ⟨0, none, .tree (.group bodyCs)⟩ tbl) rest := by
  have hstep := processRule_defcmd fuel tbl "newcommand".toList cname bodyCs rest
    (by simp [defNames])
  rw [if_neg (by simp [habs]), if_pos (by simp [habs])] at hstep
  simp only [filterRun, hstep, except_bind_ok]
  exact except_bind_eta _

/-- Invoking a registered macro consults the *current* level's table: the
body found under the name in `tbl` is expanded into the queue, which is
then processed further with the same table. -/
theorem filterRun_invoke_step (fuel level : Nat) (tbl : Table)
    (nm : List Char) (d : MacroData) (rest : List Node)
    (hnd : nm ∉ defNames)
    (hne : nm ≠ "newenvironment".toList ∧ nm ≠ "renewenvironment".toList)
    (hlk : lookupTbl nm tbl = some d) :
    filterRun processRule (fuel + 1) level tbl (.command nm :: rest) =
      (do
        let q' ← expandMacro fuel d rest
        let (out, st') ← filterRun processRule fuel level tbl q'
        .ok (out, st')) := by
  have hstep : processRule fuel tbl (.command nm) rest =
      (do
        let q' ← expandMacro fuel d rest
        .ok ⟨tbl, [], none, q'⟩) := by
    have henv : ¬(nm = "newenvironment".toList ∨ nm = "renewenvironment".toList) := by
      rintro (h | h)
      · exact hne.1 h
      · exact hne.2 h
    simp only [processRule, if_neg hnd, if_neg henv, hlk]
  simp only [filterRun, hstep]
  cases expandMacro fuel d rest with
  | ok q' =>
    simp only [except_bind_ok]
    rfl
  | error e => rfl

/-! ### `read_next` facts -/

theorem readNextE_exhaust :
    ∀ pre : List Node, (∀ x ∈ pre, skippable x = true) →
      readNextE pre = .error .unexpectedEnd := by
  intro pre
  induction pre with
  | nil => intro _; rfl
  | cons n rest ih =>
    intro h
    have hn : skippable n = true := h n (List.mem_cons_self n rest)
    simp only [readNextE, hn, if_pos]
    exact ih (fun x hx => h x (List.mem_cons_of_mem n hx))

theorem readNextE_skip :
    ∀ (pre : List Node) (n : Node) (rest : List Node),
      (∀ x ∈ pre, skippable x = true) → skippable n = false →
      readNextE (pre ++ n :: rest) =
        .ok (match n with
          | .text (c1 :: c2 :: cs) => (.text [c1], .text (c2 :: cs) :: rest)
          | _ => (n, rest)) := by
  intro pre
  induction pre with
  | nil =>
    intro n rest _ hn
    cases n with
    | text s =>
      cases s with
      | nil => simp [readNextE, skippable]
      | cons c1 s' =>
        cases s' with
        | nil => simp [readNextE, skippable]
        | cons c2 cs => simp [readNextE, skippable]
    | ws s => simp [skippable] at hn
    | comment s => simp [skippable] at hn
    | command s => simp [readNextE, skippable]
    | param hh idx => simp [readNextE, skippable]
    | group cs => simp [readNextE, skippable]
    | bracket cs => simp [readNextE, skippable]
  | cons m pre' ih =>
    intro n rest h hn
    have hm : skippable m = true := h m (List.mem_cons_self m pre')
    simp only [List.cons_append, readNextE, hm, if_pos]
    exact ih n rest (fun x hx => h x (List.mem_cons_of_mem m hx)) hn

/-- Whatever `read_next` returns is neither whitespace nor a comment. -/
theorem readNextE_not_skippable :
    ∀ (q : List Node) (n : Node) (q' : List Node),
      readNextE q = .ok (n, q') → skippable n = false := by
  intro q
  induction q with
  | nil => intro n q' h; cases h
  | cons m rest ih =>
    intro n q' h
    simp only [readNextE] at h
    split at h
    · exact ih n q' h
    · next hm =>
      split at h
      · injection h with h'
        injection h' with h1 h2
        subst h1
        rfl
      · injection h with h'
        injection h' with h1 h2
        subst h1
        simpa using hm

/-- Every direct child collected by `_read_until_end_bracket` came from
`read_next`, hence is neither whitespace nor a comment. -/
theorem readUntilEndBracket_clean :
    ∀ (fuel : Nat) (q cs rest : List Node),
      readUntilEndBracket fuel q = .ok (cs, rest) →
      ∀ c ∈ cs, skippable c = false := by
  intro fuel
  induction fuel with
  | zero => intro q cs rest h; cases h
  | succ f ih =>
    intro q cs rest h
    simp only [readUntilEndBracket] at h
    cases hr : readNextE q with
    | error e => rw [hr] at h; cases h
    | ok p =>
      obtain ⟨n, q1⟩ := p
      rw [hr] at h
      simp only [except_bind_ok] at h
      split at h
      · injection h with h'
        injection h' with h1 h2
        subst h1
        intro c hc
        cases hc
      · cases hrec : readUntilEndBracket f q1 with
        | error e => rw [hrec] at h; cases h
        | ok p2 =>
          obtain ⟨cs2, rest2⟩ := p2
          rw [hrec] at h
          simp only [except_bind_ok] at h
          injection h with h'
          injection h' with h1 h2
          subst h1
          intro c hc
          rcases List.mem_cons.mp hc with h | h
          · rw [h]
            exact readNextE_not_skippable q n q1 hr
          · exact ih q1 cs2 rest2 hrec c h

/-! ### Parameter substitution, characterised -/

theorem filterRun_replace (params : List Node) :
    ∀ fuel level cs, countL cs < fuel → level ≤ 256 → gdepthL cs + level ≤ 256 →
      filterRun (replaceRule params) fuel level () cs =
        (substL params cs).map (fun l => (l, ())) := by
  intro fuel
  induction fuel with
  | zero =>
    intro level cs hc
    omega
  | succ f ih =>
    intro level cs hc hlev hdep
    cases cs with
    | nil => simp [substL, filterRun, Except.map]
    | cons n rest =>
      have hcrest : countL rest < f := by
        simp only [countL] at hc
        have hn1 : 1 ≤ countN n := by
          cases n <;> simp [countN]
        omega
      have hdrest : gdepthL rest + level ≤ 256 := by
        simp only [gdepthL] at hdep
        omega
      have ihr := ih level rest hcrest hlev hdrest
      cases n with
      | text s =>
        simp only [filterRun, replaceRule, except_bind_ok, ihr, substL]
        cases substL params rest <;> rfl
      | ws s =>
        simp only [filterRun, replaceRule, except_bind_ok, ihr, substL]
        cases substL params rest <;> rfl
      | command s =>
        simp only [filterRun, replaceRule, except_bind_ok, ihr, substL]
        cases substL params rest <;> rfl
      | comment s =>
        simp only [filterRun, replaceRule, except_bind_ok, ihr, substL]
        cases substL params rest <;> rfl
      | param hh idx =>
        simp only [filterRun, replaceRule, substL]
        by_cases h1 : hh.isOne
        · rw [if_pos h1, if_pos h1]
          cases hpi : pyIndex params (idx - 1) with
          | some arg =>
            simp only [except_bind_ok, ihr]
            cases substL params rest <;> rfl
          | none => rfl
        · rw [if_neg h1, if_neg h1]
          by_cases h2 : hh.halve.isIntegral
          · rw [if_pos h2, if_pos h2]
            simp only [except_bind_ok, ihr]
            cases substL params rest <;> rfl
          · rw [if_neg h2, if_neg h2]
            rfl
      | group cs' =>
        have hcin : countL cs' < f := by
          simp only [countL, countN] at hc
          omega
        have hdin : gdepthL cs' + (level + 1) ≤ 256 := by
          simp only [gdepthL, gdepth] at hdep
          omega
        have ihi := ih (level + 1) cs' hcin (by omega) hdin
        simp only [filterRun, replaceRule, except_bind_ok, substL]
        rw [if_neg (by omega : ¬ 256 < level + 1), ihi, ihr]
        cases substL params cs' with
        | ok csr =>
          cases substL params rest <;> rfl
        | error e => rfl
      | bracket cs' =>
        have hcin : countL cs' < f := by
          simp only [countL, countN] at hc
          omega
        have hdin : gdepthL cs' + (level + 1) ≤ 256 := by
          simp only [gdepthL, gdepth] at hdep
          omega
        have ihi := ih (level + 1) cs' hcin (by omega) hdin
        simp only [filterRun, replaceRule, except_bind_ok, substL]
        rw [if_neg (by omega : ¬ 256 < level + 1), ihi, ihr]
        cases substL params cs' with
        | ok csr =>
          cases substL params rest <;> rfl
        | error e => rfl

/-- `_replace_parameters` on a body group is exactly the substitution walk
of the claim, for trees within the depth cap. -/
theorem replaceParams_spec {fuel : Nat} (params bcs : List Node)
    (hc : countL bcs < fuel) (hd : gdepthL bcs ≤ 256) :
    replaceParams fuel (.group bcs) params = (substL params bcs).map Node.group := by
  unfold replaceParams filterE
  have hcopy : copyNode (.group bcs) = .group bcs := copyNode_eq _
  simp only [if_pos rfl, hcopy, ite_self]
  rw [filterRun_replace params fuel 0 bcs hc (by omega) (by omega)]
  cases substL params bcs <;> rfl

/-! ### Support for the concrete counterexamples -/

theorem gdepth_deepNode : ∀ k, gdepth (deepNode k) = k := by
  intro k
  induction k with
  | zero => rfl
  | succ k ih => simp [deepNode, gdepth, gdepthL, ih]

theorem countN_deepNode : ∀ k, countN (deepNode k) = k + 1 := by
  intro k
  induction k with
  | zero => rfl
  | succ k ih => simp [deepNode, countN, countL, ih]

theorem not_isPowTwo_three : ¬ IsPowTwo 3 := by
  rintro ⟨z, hz⟩
  cases z with
  | ofNat n =>
    rw [Int.ofNat_eq_coe, zpow_natCast] at hz
    have h3 : (2 : ℕ) ^ n = 3 := by exact_mod_cast hz.symm
    rcases n with _ | _ | n
    · simp at h3
    · simp at h3
    · have h4 : 4 ≤ (2 : ℕ) ^ (n + 2) := by
        have h1 : 1 ≤ (2 : ℕ) ^ n := Nat.one_le_two_pow
        calc 4 = 4 * 1 := by norm_num
        _ ≤ 4 * 2 ^ n := by omega
        _ = 2 ^ (n + 2) := by ring
      omega
  | negSucc n =>
    rw [zpow_negSucc] at hz
    have hne : ((2 : ℚ) ^ (n + 1)) ≠ 0 := by positivity
    have hmul : (3 : ℚ) * 2 ^ (n + 1) = 1 := by
      rw [hz]
      field_simp
    have hnat : 3 * 2 ^ (n + 1) = 1 := by exact_mod_cast hmul
    have h1 : 1 ≤ (2 : ℕ) ^ (n + 1) := Nat.one_le_two_pow
    omega

/-! ## The claims -/

/-- C1 (amended): for every source text whose brace *tokens* (unescaped
braces as actually recognised by the tokenizer, i.e. not swallowed by an
earlier comment or command token) are balanced in valid nesting,
stringifying the tree returned by `to_ast` yields exactly the original
text.  (As stated over character-level unescaped braces the claim is
false: see the counterexample, where a comment swallows a brace.) -/
theorem claim1_roundtrip (txt : List Char)
    (h : balancedFrom (braceSig (tokenize txt)) 0 = true) :
    (toAst txt).map strNode = .ok txt :=
  toAst_roundtrip h

/-- Witness for C1: a concrete text with nested braces, a comment, a
command and a parameter round-trips. -/
theorem claim1_roundtrip_witness :
    balancedFrom (braceSig (tokenize
      ['a', '\x7b', 'b', ' ', '%', 'c', '\n', 'd', '\x7d', '\\', 'x', 'y', ' ', '#', '2', 'e'])) 0 =
      true ∧
    (toAst ['a', '\x7b', 'b', ' ', '%', 'c', '\n', 'd', '\x7d', '\\', 'x', 'y', ' ', '#', '2', 'e']).map
        strNode =
      .ok ['a', '\x7b', 'b', ' ', '%', 'c', '\n', 'd', '\x7d', '\\', 'x', 'y', ' ', '#', '2', 'e'] :=
  ⟨rfl, claim1_roundtrip _ rfl⟩

/-- Counterexample to C1 as stated: in `{%}` the unescaped braces are
balanced in valid nesting at the character level, but the `%` comments
out the closing brace, the group stays open, and `to_ast` returns the
open bracket group, which stringifies to `{%}}` — not the original text. -/
theorem claim1_counterexample :
    charBalanced ['\x7b', '%', '\x7d'] = true ∧
      (toAst ['\x7b', '%', '\x7d']).map strNode ≠ .ok ['\x7b', '%', '\x7d'] := by
  refine ⟨rfl, ?_⟩
  intro h
  rw [show (toAst ['\x7b', '%', '\x7d']).map strNode =
      .ok ['\x7b', '%', '\x7d', '\x7d'] from rfl] at h
  injection h with h'
  exact absurd h' (by decide)

/-- C2: the token sequence of `Tokenizer.tokenize` equals the sequence
prescribed by the specification (at each step the match with the smallest
start at or after the scan position, ties broken by pattern list order),
its spans tile the text with no gaps and no overlaps, and their
concatenation is the input text. -/
theorem claim2_tokenizer (txt : List Char) :
    tokenize txt = tokenizeSpec txt ∧
      covers (tokenize txt) 0 txt.length = true ∧
      tokensText txt (tokenize txt) = txt :=
  ⟨tokenize_eq_spec txt, tokenize_covers txt, tokensText_tokenize txt⟩

/-- C3 (amended): `to_ast` raises `UnbalancedBrackets` exactly when some
prefix of the emitted brace-*token* sequence contains more right braces
than left braces.  (At the character level the claim is false in both
directions: see the counterexample.) -/
theorem claim3_unbalanced (txt : List Char) :
    toAst txt = .error .unbalanced ↔ dips (braceSig (tokenize txt)) 0 = true :=
  toAst_unbalanced_iff txt

/-- Counterexample to C3 as stated: `%}` contains an extra unmatched
unescaped `}` at the character level, yet `to_ast` succeeds (the comment
swallows the brace); `%{\n}` has balanced unescaped braces in valid
nesting at the character level, yet `to_ast` raises `UnbalancedBrackets`
(the comment swallows only the opening brace). -/
theorem claim3_counterexample :
    (charDips ['%', '\x7d'] = true ∧
      toAst ['%', '\x7d'] = .ok (.group [.comment ['\x7d']])) ∧
    (charBalanced ['%', '\x7b', '\n', '\x7d'] = true ∧
      toAst ['%', '\x7b', '\n', '\x7d'] = .error .unbalanced) :=
  ⟨⟨rfl, rfl⟩, ⟨rfl, rfl⟩⟩

/-- C4 (amended): `GroupNode.filter` is bounded to 256 levels of group
nesting below the root: it fails with the recursion-limit error exactly on
trees whose children nest deeper than 256 group levels, and never raises
it otherwise.  `GroupNode.copy`, however, performs *no* depth check: it is
a total recursive copy that returns the tree unchanged at every depth
(relying on the native stack), never raising `RecursionLimitExceeded`. -/
theorem claim4_depth (fuel : Nat) (cs : List Node) (hc : countL cs < fuel) :
    copyNode (.group cs) = .group cs ∧
    (gdepthL cs ≤ 256 →
      filterE keepAllRule fuel () true (.group cs) = .ok (.group cs, ())) ∧
    (256 < gdepthL cs →
      filterE keepAllRule fuel () true (.group cs) = .error .recursionLimit) := by
  refine ⟨copyNode_eq _, ?_, ?_⟩
  · intro hd
    have h := (filterRun_keepAll fuel 0 cs hc (by omega)).1 (by omega)
    simp [filterE, copyNode_eq, h, except_bind_ok]
  · intro hd
    have h := (filterRun_keepAll fuel 0 cs hc (by omega)).2 (by omega)
    simp [filterE, copyNode_eq, h, except_bind_ok, except_bind_err]

/-- Witness for C4. -/
theorem claim4_depth_witness :
    countL [Node.bracket [Node.text ['a']]] < 50 ∧
    (copyNode (.group [Node.bracket [Node.text ['a']]]) =
        .group [Node.bracket [Node.text ['a']]] ∧
      (gdepthL [Node.bracket [Node.text ['a']]] ≤ 256 →
        filterE keepAllRule 50 () true (.group [Node.bracket [Node.text ['a']]]) =
          .ok (.group [Node.bracket [Node.text ['a']]], ())) ∧
      (256 < gdepthL [Node.bracket [Node.text ['a']]] →
        filterE keepAllRule 50 () true (.group [Node.bracket [Node.text ['a']]]) =
          .error .recursionLimit)) :=
  ⟨by simp [countL, countN], claim4_depth 50 _ (by simp [countL, countN])⟩

/-- Counterexample to C4 as stated: on a tree nested 258 group levels deep
the filter fails with the recursion-limit error, but `copy` does not — it
returns the copied tree (the pure total function cannot raise at all). -/
theorem claim4_counterexample :
    256 < gdepth (Node.group [deepNode 257]) ∧
    copyNode (Node.group [deepNode 257]) = Node.group [deepNode 257] ∧
    filterE keepAllRule 600 () true (Node.group [deepNode 257]) = .error .recursionLimit := by
  have hg : gdepthL [deepNode 257] = 257 := by
    simp [gdepthL, gdepth_deepNode]
  have hcnt : countL [deepNode 257] < 600 := by
    simp [countL, countN_deepNode]
  refine ⟨?_, copyNode_eq _, ?_⟩
  · simp [gdepth, hg]
  · have h := (filterRun_keepAll 600 0 [deepNode 257] hcnt (by omega)).2 (by omega)
    simp [filterE, copyNode_eq, h, except_bind_ok, except_bind_err]

/-- C5: during expansion, `\newcommand` on a name already in the active
table raises `DuplicateMacro`; `\renewcommand` always overwrites (and a
subsequent lookup of the name yields the new body); `\providecommand` on a
present name leaves the table untouched, and on an absent name registers
it.  The definition here has its name in a bracket group and its body as
the following bracket group. -/
theorem claim5_definitions (fuel : Nat) (tbl : Table) (cname : List Char)
    (bodyCs rest : List Node) :
    (memTbl cname tbl = true →
      processRule fuel tbl (.command "newcommand".toList)
          (Node.bracket [Node.command cname] :: Node.bracket bodyCs :: rest) =
        .error .duplicateMacro) ∧
    (processRule fuel tbl (.command "renewcommand".toList)
          (Node.bracket [Node.command cname] :: Node.bracket bodyCs :: rest) =
        .ok ⟨insertTbl cname ⟨0, none, .tree (.group bodyCs)⟩ tbl, [], none, rest⟩ ∧
      lookupTbl cname (insertTbl cname ⟨0, none, .tree (.group bodyCs)⟩ tbl) =
        some ⟨0, none, .tree (.group bodyCs)⟩) ∧
    (memTbl cname tbl = true →
      processRule fuel tbl (.command "providecommand".toList)
          (Node.bracket [Node.command cname] :: Node.bracket bodyCs :: rest) =
        .ok ⟨tbl, [], none, rest⟩) ∧
    (memTbl cname tbl = false →
      processRule fuel tbl (.command "providecommand".toList)
          (Node.bracket [Node.command cname] :: Node.bracket bodyCs :: rest) =
        .ok ⟨insertTbl cname ⟨0, none, .tree (.group bodyCs)⟩ tbl, [], none, rest⟩) := by
  refine ⟨?_, ⟨?_, lookupTbl_insert cname _ tbl⟩, ?_, ?_⟩
  · intro hm
    rw [processRule_defcmd fuel tbl _ cname bodyCs rest (by simp [defNames])]
    rw [if_pos ⟨rfl, hm⟩]
  · rw [processRule_defcmd fuel tbl _ cname bodyCs rest (by simp [defNames])]
    rw [if_neg (by rintro ⟨h, _⟩; exact absurd h (by decide)),
      if_pos (Or.inl (by decide))]
  · intro hm
    rw [processRule_defcmd fuel tbl _ cname bodyCs rest (by simp [defNames])]
    have hcond : ¬("providecommand".toList ≠ "providecommand".toList ∨
        ¬ memTbl cname tbl = true) := by
      rintro (h | h)
      · exact h rfl
      · exact h hm
    rw [if_neg (by rintro ⟨h, _⟩; exact absurd h (by decide)), if_neg hcond]
  · intro hm
    rw [processRule_defcmd fuel tbl _ cname bodyCs rest (by simp [defNames])]
    rw [if_neg (by rintro ⟨h, _⟩; exact absurd h (by decide)),
      if_pos (Or.inr (by simp [hm]))]

/-- Witness for C5, over a one-entry table holding the name `f`. -/
theorem claim5_definitions_witness :
    memTbl "f".toList [("f".toList, ⟨0, none, .tree (.group [])⟩)] = true ∧
    processRule 5 [("f".toList, ⟨0, none, .tree (.group [])⟩)]
        (.command "newcommand".toList)
        (Node.bracket [Node.command "f".toList] :: Node.bracket [] :: []) =
      .error .duplicateMacro ∧
    memTbl "g".toList [("f".toList, ⟨0, none, .tree (.group [])⟩)] = false ∧
    processRule 5 [("f".toList, ⟨0, none, .tree (.group [])⟩)]
        (.command "providecommand".toList)
        (Node.bracket [Node.command "g".toList] :: Node.bracket [] :: []) =
      .ok ⟨insertTbl "g".toList ⟨0, none, .tree (.group [])⟩
            [("f".toList, ⟨0, none, .tree (.group [])⟩)], [], none, []⟩ :=
  ⟨rfl,
   (claim5_definitions 5 _ "f".toList [] []).1 rfl,
   rfl,
   (claim5_definitions 5 _ "g".toList [] []).2.2.2 rfl⟩

/-- C6: `read_next` discards leading whitespace and comment nodes and
returns the first other node; a text node of more than one character is
split, the first character returned and the remainder pushed back onto
the queue; an exhausted queue (with error reporting enabled) raises
`UnexpectedEndOfInput`. -/
theorem claim6_read_next :
    (∀ (pre : List Node) (n : Node) (rest : List Node),
      (∀ x ∈ pre, skippable x = true) → skippable n = false →
      readNextE (pre ++ n :: rest) =
        .ok (match n with
          | .text (c1 :: c2 :: cs) => (.text [c1], .text (c2 :: cs) :: rest)
          | _ => (n, rest))) ∧
    (∀ pre : List Node, (∀ x ∈ pre, skippable x = true) →
      readNextE pre = .error .unexpectedEnd) :=
  ⟨readNextE_skip, readNextE_exhaust⟩

/-- Witness for C6: whitespace and a comment are skipped, the text run
`ab` is split into `a` with `b` pushed back; the same skippable prefix
alone raises. -/
theorem claim6_read_next_witness :
    readNextE [Node.ws [' '], Node.comment ['c'], Node.text ['a', 'b']] =
      .ok (Node.text ['a'], [Node.text ['b']]) ∧
    readNextE [Node.ws [' '], Node.comment ['c']] = .error .unexpectedEnd :=
  ⟨claim6_read_next.1 [Node.ws [' '], Node.comment ['c']] (Node.text ['a', 'b']) []
      (by decide) (by decide),
   claim6_read_next.2 [Node.ws [' '], Node.comment ['c']] (by decide)⟩

/-- C7 (amended): `_replace_parameters` on a macro body is exactly the
substitution walk `substL`: every parameter node of hash count 1 is
replaced by a spliced copy of the corresponding positional argument;
every other parameter node has its hash count halved and is kept when the
halved count is an integer; a halved count that is *not an integer* (an
odd hash count) raises `MalformedParameter`.  (The claim's original error
condition — "not a power of two after halving" — is weaker than what the
code enforces only in the claimed direction: see the counterexample,
where a halved count of 3 is not a power of two yet no error is
raised.) -/
theorem claim7_substitution (fuel : Nat) (params bcs : List Node)
    (hc : countL bcs < fuel) (hd : gdepthL bcs ≤ 256) :
    replaceParams fuel (.group bcs) params = (substL params bcs).map Node.group :=
  replaceParams_spec params bcs hc hd

/-- Witness for C7: `#1` followed by `!`, with a one-group argument. -/
theorem claim7_substitution_witness :
    countL [Node.param ⟨1, 0⟩ 1, Node.text ['!']] < 20 ∧
    gdepthL [Node.param ⟨1, 0⟩ 1, Node.text ['!']] ≤ 256 ∧
    replaceParams 20 (.group [Node.param ⟨1, 0⟩ 1, Node.text ['!']])
        [Node.bracket [Node.text ['w']]] =
      (substL [Node.bracket [Node.text ['w']]]
        [Node.param ⟨1, 0⟩ 1, Node.text ['!']]).map Node.group :=
  ⟨by simp [countL, countN], by simp [gdepthL, gdepth],
   claim7_substitution 20 _ _ (by simp [countL, countN]) (by simp [gdepthL, gdepth])⟩

/-- Counterexample to C7 as stated: a parameter node with six hashes is
halved to hash count 3 — not a power of two — and kept, with no
`MalformedParameter` error raised. -/
theorem claim7_counterexample :
    replaceParams 10 (.group [.param ⟨6, 0⟩ 2]) [Node.text ['x']] =
      .ok (.group [.param ⟨6, 1⟩ 2]) ∧
    HashCount.val ⟨6, 1⟩ = 3 ∧ ¬ IsPowTwo (HashCount.val ⟨6, 1⟩) := by
  have hval : HashCount.val ⟨6, 1⟩ = 3 := by
    norm_num [HashCount.val]
  refine ⟨rfl, hval, ?_⟩
  rw [hval]
  exact not_isPowTwo_three

/-- C8 (amended): for every parsed tree whose group nesting stays within
the 256-level cap and which contains no command node named `newcommand`,
`renewcommand`, `providecommand`, `newenvironment`, `renewenvironment`,
`begin` or `end`, running `Demacro.demacro` with an empty macro table
yields a tree whose stringification is identical to the input's.  (As
stated — for *every* parsed tree — the claim is false: a definition
command is consumed even with an empty table, and a `begin`/`end` name
lookup discards the whitespace and comments it skips even when the name
is not registered; see the counterexample.) -/
theorem claim8_empty_expansion (fuel : Nat) (cs : List Node)
    (hc : countL cs < fuel) (hd : gdepthL cs ≤ 256)
    (hall : deepAllL notSpecialCmd cs = true) :
    (demacroTree fuel emptyTbl (.group cs)).map (fun p => strNode p.1) =
      .ok (strNode (.group cs)) := by
  rw [demacroEmpty hc hd hall]
  rfl

/-- Witness for C8: text, whitespace, an unregistered command and a
bracket group survive an empty-table expansion verbatim. -/
theorem claim8_empty_expansion_witness :
    countL [Node.text ['h'], Node.ws [' '], Node.command "foo".toList,
        Node.bracket [Node.text ['x']]] < 50 ∧
    gdepthL [Node.text ['h'], Node.ws [' '], Node.command "foo".toList,
        Node.bracket [Node.text ['x']]] ≤ 256 ∧
    deepAllL notSpecialCmd [Node.text ['h'], Node.ws [' '], Node.command "foo".toList,
        Node.bracket [Node.text ['x']]] = true ∧
    (demacroTree 50 emptyTbl (.group [Node.text ['h'], Node.ws [' '],
        Node.command "foo".toList, Node.bracket [Node.text ['x']]])).map
        (fun p => strNode p.1) =
      .ok (strNode (.group [Node.text ['h'], Node.ws [' '],
        Node.command "foo".toList, Node.bracket [Node.text ['x']]])) :=
  ⟨by simp [countL, countN], by simp [gdepthL, gdepth], rfl,
   claim8_empty_expansion 50 _ (by simp [countL, countN]) (by simp [gdepthL, gdepth]) rfl⟩

/-- Counterexample to C8 as stated: on the parse of `\begin {d}` the
empty-table expansion drops the whitespace between `\begin` and the
group (the failed environment-name lookup reads past it and pushes back
only the group), so the result stringifies to `\begin{d}`, not to the
input's `\begin {d}`. -/
theorem claim8_counterexample :
    (demacroTree 50 emptyTbl (.group [Node.command "begin".toList, Node.ws [' '],
        Node.bracket [Node.text ['d']]])).map (fun p => strNode p.1) ≠
      .ok (strNode (.group [Node.command "begin".toList, Node.ws [' '],
        Node.bracket [Node.text ['d']]])) := by
  intro h
  rw [show (demacroTree 50 emptyTbl (.group [Node.command "begin".toList, Node.ws [' '],
        Node.bracket [Node.text ['d']]])).map (fun p => strNode p.1) =
      .ok ['\\', 'b', 'e', 'g', 'i', 'n', '\x7b', 'd', '\x7d'] from rfl,
    show strNode (.group [Node.command "begin".toList, Node.ws [' '],
        Node.bracket [Node.text ['d']]]) =
      ['\\', 'b', 'e', 'g', 'i', 'n', ' ', '\x7b', 'd', '\x7d'] from rfl] at h
  injection h with h'
  exact absurd h' (by decide)

/-- C9: scoping of macro definitions during one expansion pass.  First:
descending into a kept bracket group processes the nested content with
the current (ancestor's) table and processes the siblings after the group
with that same table — the nested level's table is discarded when the
group closes, so a definition inside the group is invisible to the
following siblings.  Second: a definition at a level makes the rest of
that level run with the updated table, so later content at the level (and,
via the first part, content nested inside later groups) sees it.  Third:
a macro invocation reads the body from the current level's table. -/
theorem claim9_scoping :
    (∀ (fuel level : Nat) (tbl : Table) (cs rest : List Node), level + 1 ≤ 256 →
      filterRun processRule (fuel + 1) level tbl (.bracket cs :: rest) =
        (do
          let (cs', _) ← filterRun processRule fuel (level + 1) tbl cs
          let (out, st') ← filterRun processRule fuel level tbl rest
          .ok (.bracket cs' :: out, st'))) ∧
    (∀ (fuel level : Nat) (tbl : Table) (cname : List Char) (bodyCs rest : List Node),
      memTbl cname tbl = false →
      filterRun processRule (fuel + 1) level tbl
          (.command "newcommand".toList :: Node.bracket [Node.command cname] ::
            Node.bracket bodyCs :: rest) =
        filterRun processRule fuel level
          (insertTbl cname ⟨0, none, .tree (.group bodyCs)⟩ tbl) rest) ∧
    (∀ (fuel level : Nat) (tbl : Table) (nm : List Char) (d : MacroData) (rest : List Node),
      nm ∉ defNames →
      nm ≠ "newenvironment".toList ∧ nm ≠ "renewenvironment".toList →
      lookupTbl nm tbl = some d →
      filterRun processRule (fuel + 1) level tbl (.command nm :: rest) =
        (do
          let q' ← expandMacro fuel d rest
          let (out, st') ← filterRun processRule fuel level tbl q'
          .ok (out, st'))) :=
  ⟨filterRun_bracket_step, filterRun_defcmd_step, filterRun_invoke_step⟩

/-- Witness for C9: concrete instances of the three scoping equations. -/
theorem claim9_scoping_witness :
    (filterRun processRule 6 0 emptyTbl (.bracket [Node.text ['a']] :: [Node.text ['b']]) =
      (do
        let (cs', _) ← filterRun processRule 5 1 emptyTbl [Node.text ['a']]
        let (out, st') ← filterRun processRule 5 0 emptyTbl [Node.text ['b']]
        .ok (.bracket cs' :: out, st'))) ∧
    (filterRun processRule 6 0 emptyTbl
        (.command "newcommand".toList :: Node.bracket [Node.command "m".toList] ::
          Node.bracket [Node.text ['y']] :: []) =
      filterRun processRule 5 0
        (insertTbl "m".toList ⟨0, none, .tree (.group [Node.text ['y']])⟩ emptyTbl) []) ∧
    (filterRun processRule 6 0
        [("m".toList, ⟨0, none, .tree (.group [Node.text ['y']])⟩)]
        (.command "m".toList :: []) =
      (do
        let q' ← expandMacro 5 ⟨0, none, .tree (.group [Node.text ['y']])⟩ []
        let (out, st') ← filterRun processRule 5 0
          [("m".toList, ⟨0, none, .tree (.group [Node.text ['y']])⟩)] q'
        .ok (out, st'))) :=
  ⟨claim9_scoping.1 5 0 emptyTbl [Node.text ['a']] [Node.text ['b']] (by omega),
   claim9_scoping.2.1 5 0 emptyTbl "m".toList [Node.text ['y']] [] rfl,
   claim9_scoping.2.2 5 0 _ "m".toList ⟨0, none, .tree (.group [Node.text ['y']])⟩ []
     (by decide) (by decide) rfl⟩

/-- C10: every unit collected by the optional-argument reader
`_read_until_end_bracket` (used for the argument-count bracket, the
default-argument bracket and an optional-argument override) came through
`read_next`, so the extracted argument has no whitespace and no comment
among its direct children — they are silently discarded; concretely, the
queue for `a b]` yields the two text nodes `a`, `b`, which stringify to
`ab`. -/
theorem claim10_optional_args :
    (∀ (fuel : Nat) (q cs rest : List Node),
      readUntilEndBracket fuel q = .ok (cs, rest) → ∀ c ∈ cs, skippable c = false) ∧
    readUntilEndBracket 10
        [Node.text ['a'], Node.ws [' '], Node.text ['b'], Node.text [']']] =
      .ok ([Node.text ['a'], Node.text ['b']], []) ∧
    strNode (.group [Node.text ['a'], Node.text ['b']]) = ['a', 'b'] :=
  ⟨readUntilEndBracket_clean, rfl, rfl⟩

/-- Witness for C10: the collected units of the concrete run are checked
to be free of whitespace and comments. -/
theorem claim10_optional_args_witness :
    readUntilEndBracket 10
        [Node.text ['a'], Node.ws [' '], Node.text ['b'], Node.text [']']] =
      .ok ([Node.text ['a'], Node.text ['b']], []) ∧
    (∀ c ∈ [Node.text ['a'], Node.text ['b']], skippable c = false) :=
  ⟨rfl,
   claim10_optional_args.1 10
     [Node.text ['a'], Node.ws [' '], Node.text ['b'], Node.text [']']]
     [Node.text ['a'], Node.text ['b']] [] rfl⟩
